import Mathlib

/-!
Verification of the momentum-stock-replay core: binary tick/level-2 decoding
(`parseBinaryData`, `parseBinaryLevel2Data` in `src/app/src/utils/api.js`),
timestamp synthesis (`preprocessTimestamps` there), and the chart aggregation
engine (`aggregateLineData`, `aggregateCandleData`, `calculateEMAs` and the
live-tick update effect in the `ChartArea` component).

Numbers: JavaScript numbers are modelled as exact rationals (`ℚ`), except in
the one place where the spec's claim is sensitive to IEEE-754 binary64
rounding — the millisecond spreading offset `Math.floor(index * (1000 /
tickCount))` of `preprocessTimestamps` — where a faithful binary64
round-to-nearest-even model (`fl` below) is used.  Machine integers read from
buffers are `ℕ`/`ℤ` with explicit two's-complement conversion.
-/

namespace MomentumReplay

/-! ### Bytes and little-endian readers

`parseBinaryData` / `parseBinaryLevel2Data` read from a `DataView` over a
`Uint8Array` (byte offset 0, as produced by `pako.inflate`).  An out-of-range
`DataView` read throws a `RangeError`; in this embedding every read yields an
`Option`, and a failed read aborts the decode with `truncatedDataError`. -/

abbrev Byte := Fin 256

/-- Read `n` consecutive bytes starting at `off`; `none` if the buffer is too
short (the `DataView` read would throw a `RangeError`). -/
def bytesAt (buf : List Byte) (off : ℕ) : ℕ → Option (List Byte)
  | 0 => some []
  | n + 1 =>
    match buf[off]?, bytesAt buf (off + 1) n with
    | some b, some bs => some (b :: bs)
    | _, _ => none

/-- Little-endian value of a byte list (first byte least significant). -/
def leVal : List Byte → ℕ
  | [] => 0
  | b :: bs => b.val + 256 * leVal bs

/-- Little-endian unsigned read of `n` bytes at offset `off`
(`getUint32`/`getBigUint64` with `littleEndian = true`). -/
def readLE (buf : List Byte) (off n : ℕ) : Option ℕ :=
  (bytesAt buf off n).map leVal

/-- Two's-complement reinterpretation of a `w`-bit unsigned value
(`getInt32` / `getBigInt64`). -/
def toSigned (w : ℕ) (v : ℕ) : ℤ :=
  if v < 2 ^ (w - 1) then (v : ℤ) else (v : ℤ) - 2 ^ w

theorem bytesAt_isSome (buf : List Byte) :
    ∀ (n off : ℕ), (bytesAt buf off n).isSome ↔ (n = 0 ∨ off + n ≤ buf.length) := by
  intro n
  induction n with
  | zero => intro off; simp [bytesAt]
  | succ n ih =>
    intro off
    constructor
    · intro h
      rcases hb : buf[off]? with _ | b <;> rcases hbs : bytesAt buf (off + 1) n with _ | bs <;>
        simp [bytesAt, hb, hbs] at h
      have h1 : off < buf.length := by
        by_contra hc
        rw [List.getElem?_eq_none (by omega)] at hb
        exact Option.noConfusion hb
      have h2 := (ih (off + 1)).mp (by simp [hbs])
      omega
    · intro h
      have h3 : off + (n + 1) ≤ buf.length := by omega
      have h1 : off < buf.length := by omega
      rcases List.getElem?_eq_some_iff.mpr ⟨h1, rfl⟩ with hb
      have h2 := (ih (off + 1)).mpr (by omega)
      rcases hbs : bytesAt buf (off + 1) n with _ | bs
      · rw [hbs] at h2; simp at h2
      · simp [bytesAt, hb, hbs]

theorem readLE_isSome (buf : List Byte) (off n : ℕ) (hn : 0 < n) :
    (readLE buf off n).isSome ↔ off + n ≤ buf.length := by
  unfold readLE
  cases h : bytesAt buf off n with
  | none =>
    have h2 := bytesAt_isSome buf n off
    rw [h] at h2
    simp at h2
    simp
    omega
  | some bs =>
    have h2 := bytesAt_isSome buf n off
    rw [h] at h2
    simp at h2
    simp
    omega

/-! ### Fixed-point decimal strings

The tick decoder emits prices and sizes as *strings*:
`(scaled / 100000).toFixed(5)` and `(scaled / 100).toFixed(2)`.  Because the
scaled value is an integer and the scale is the matching power of ten, the
`toFixed` output is the exact decimal rendering of `scaled / 10^d` (the
binary64 quotient is within 2.4e-12 of that value, far less than the 5e-6
half-spacing of `d`-digit decimals, so rounding always recovers the exact
digits).  A formatted number is modelled by its sign, integer part and the
exact list of fractional digits. -/

/-- The `d` decimal digits of `m` (most significant first, zero padded),
i.e. the digit string of `m % 10^d` of length exactly `d`. -/
def digitsBase10 : (d : ℕ) → ℕ → List (Fin 10)
  | 0, _ => []
  | d + 1, m => digitsBase10 d (m / 10) ++ [⟨m % 10, Nat.mod_lt _ (by decide)⟩]

/-- A fixed-point decimal string: sign, integer part, fractional digits. -/
structure FixedStr where
  neg : Bool
  intPart : ℕ
  frac : List (Fin 10)
deriving DecidableEq, Repr

/-- The string `(n / 10^d).toFixed(d)` for an integer `n`. -/
def fixedOfScaled (n : ℤ) (d : ℕ) : FixedStr :=
  { neg := decide (n < 0)
  , intPart := n.natAbs / 10 ^ d
  , frac := digitsBase10 d (n.natAbs % 10 ^ d) }

theorem digitsBase10_length : ∀ (d m : ℕ), (digitsBase10 d m).length = d := by
  intro d
  induction d with
  | zero => intro m; simp [digitsBase10]
  | succ d ih => intro m; simp [digitsBase10, ih]

theorem fixedOfScaled_frac_length (n : ℤ) (d : ℕ) :
    (fixedOfScaled n d).frac.length = d := by
  simp [fixedOfScaled, digitsBase10_length]

/-! ### TickCodec: `parseBinaryData`

Header (17 bytes): magic `"TICK"` (4) + version (1) + row count (4, LE u32) +
initial timestamp in µs (8, LE u64).  Rows (24 bytes): LE i64 delta-time µs,
LE i32 scaled bid price, ask price, bid size, ask size.

The source reads all header fields *before* checking the magic, so a buffer
too short for the header fails with a `RangeError` (truncation) even when the
magic itself is wrong; the magic check (`FormatError`) happens only once the
header was read. -/

inductive DecodeError where
  | formatError
  | truncatedDataError
deriving DecidableEq, Repr

instance {ε α : Type} [DecidableEq ε] [DecidableEq α] : DecidableEq (Except ε α)
  | .error e, .error f =>
    if h : e = f then .isTrue (by rw [h]) else .isFalse (fun hc => h (Except.error.inj hc))
  | .error _, .ok _ => .isFalse Except.noConfusion
  | .ok _, .error _ => .isFalse Except.noConfusion
  | .ok a, .ok b =>
    if h : a = b then .isTrue (by rw [h]) else .isFalse (fun hc => h (Except.ok.inj hc))



structure RawRow where
  deltaTimeUs : ℤ
  priceBidScaled : ℤ
  priceAskScaled : ℤ
  sizeBidScaled : ℤ
  sizeAskScaled : ℤ
deriving DecidableEq, Repr

/-- Read one 24-byte row at offset `off`. -/
def readRow (buf : List Byte) (off : ℕ) : Option RawRow :=
  match readLE buf off 8, readLE buf (off + 8) 4, readLE buf (off + 12) 4,
      readLE buf (off + 16) 4, readLE buf (off + 20) 4 with
  | some dt, some pb, some pa, some sb, some sa =>
    some ⟨toSigned 64 dt, toSigned 32 pb, toSigned 32 pa, toSigned 32 sb, toSigned 32 sa⟩
  | _, _, _, _, _ => none

/-- One decoded tick.  The source additionally stores the timestamp as an ISO
string (millisecond precision) and duplicates each price/size field under a
second key (`priceBid`/`bid_price`, …); here each field is kept once, and the
timestamp is kept as the exact `absoluteTimestampUs` BigInt value computed by
the source. -/
structure Tick where
  timestampUs : ℤ
  priceBid : FixedStr
  priceAsk : FixedStr
  sizeBid : FixedStr
  sizeAsk : FixedStr
deriving DecidableEq, Repr

/-- Build a tick from a raw row, as in the loop body of `parseBinaryData`:
`absoluteTimestampUs = initialTimestampUs + deltaTimeUs` (note: the *header*
timestamp plus this row's delta — the running value is never updated), prices
`toFixed(5)` of `scaled / 100000`, sizes `toFixed(2)` of `scaled / 100`. -/
def mkTick (initTs : ℕ) (r : RawRow) : Tick :=
  { timestampUs := (initTs : ℤ) + r.deltaTimeUs
  , priceBid := fixedOfScaled r.priceBidScaled 5
  , priceAsk := fixedOfScaled r.priceAskScaled 5
  , sizeBid := fixedOfScaled r.sizeBidScaled 2
  , sizeAsk := fixedOfScaled r.sizeAskScaled 2 }

/-- The row-reading loop of `parseBinaryData`: `n` rows of 24 bytes starting
at `off`; an out-of-range read aborts the whole decode. -/
def parseRows (buf : List Byte) (initTs : ℕ) (off : ℕ) :
    ℕ → Except DecodeError (List Tick)
  | 0 => .ok []
  | n + 1 =>
    match readRow buf off with
    | none => .error .truncatedDataError
    | some r =>
      match parseRows buf initTs (off + 24) n with
      | .ok ts => .ok (mkTick initTs r :: ts)
      | .error e => .error e

/-- ASCII bytes of `"TICK"`. -/
def tickMagic : List Byte := [84, 73, 67, 75]

/-- `parseBinaryData`: decode the primary tick buffer. -/
def parseBinaryData (buf : List Byte) : Except DecodeError (List Tick) :=
  match bytesAt buf 0 4, buf[4]?, readLE buf 5 4, readLE buf 9 8 with
  | some magic, some _ver, some numRows, some initTs =>
    if magic = tickMagic then parseRows buf initTs 17 numRows
    else .error .formatError
  | _, _, _, _ => .error .truncatedDataError

/-- The row count declared by the header (LE u32 at offset 5). -/
def declaredRows (buf : List Byte) : ℕ := (readLE buf 5 4).getD 0

/-- The initial timestamp declared by the header (LE u64 at offset 9, µs). -/
def declaredInitTs (buf : List Byte) : ℕ := (readLE buf 9 8).getD 0

/-- The raw row at index `j` (row data starts at byte 17, 24 bytes per row). -/
def rowAt (buf : List Byte) (j : ℕ) : RawRow :=
  (readRow buf (17 + 24 * j)).getD ⟨0, 0, 0, 0, 0⟩

/-! ### L2Codec: `parseBinaryLevel2Data`

Header: LE u64 initial timestamp (ms) + LE u32 mapping-string length + that
many bytes of `"code:LABEL,code:LABEL,…"`.  Rows (14 bytes): LE i32 delta-time
ms, LE i32 delta-price (scaled by 100000), LE i32 size, u8 entry type, u8
exchange code.  Delta time and delta price accumulate into running sums; the
decoded price is `parseFloat(cumulativePrice / 100000).toFixed(4))`. -/

/-- `x.toFixed(4)` parsed back to a number: round to the nearest multiple of
`1/10000`.  ECMA `toFixed` picks the *larger* candidate on exact halves, i.e.
rounds half-way cases up; binary64 representation error can flip an exact
half-way case (only possible when the scaled cumulative price ends in the
digit 5), which this exact-rational model idealises as always rounding up. -/
def round4 (q : ℚ) : ℚ := (⌊q * 10000 + 1 / 2⌋ : ℤ) / 10000

/-- Split a byte list on a separator byte (`String.prototype.split`). -/
def splitOnByte (sep : Byte) : List Byte → List (List Byte)
  | [] => [[]]
  | b :: bs =>
    match splitOnByte sep bs, decide (b = sep) with
    | r, true => [] :: r
    | [], false => [[b]]
    | h :: t, false => (b :: h) :: t

/-- `parseInt` restricted to the decimal-digit prefixes appearing in mapping
strings: `none` when the text does not start with a digit (JS `NaN`). -/
def parseIntBytes (l : List Byte) : Option ℕ :=
  let ds := l.takeWhile (fun b => decide (48 ≤ b.val) && decide (b.val ≤ 57))
  if ds.isEmpty then none
  else some (ds.foldl (fun a b => a * 10 + (b.val - 48)) 0)

/-- Parse the exchange mapping string into (code, label) entries.  Entries
whose code does not parse (JS key `NaN`) or whose label is missing or empty
(`undefined`/`""`, both falsy under the `|| 'UNKNOWN'` lookup) are dropped, as
they are indistinguishable from absent entries under that lookup. -/
def buildExchangeMap (bytes : List Byte) : List (ℕ × List Byte) :=
  (splitOnByte 44 bytes).foldl
    (fun m seg =>
      match splitOnByte 58 seg with
      | code :: label :: _ =>
        match parseIntBytes code, label with
        | some c, _ :: _ => m ++ [(c, label)]
        | _, _ => m
      | _ => m)
    []

/-- ASCII bytes of `'UNKNOWN'`. -/
def unknownLabel : List Byte := [85, 78, 75, 78, 79, 87, 78]

/-- `exchangeMap[exchangeCode] || 'UNKNOWN'`; later entries for the same code
overwrite earlier ones (JS object assignment), hence the last match wins. -/
def lookupExchange (m : List (ℕ × List Byte)) (c : ℕ) : List Byte :=
  match (m.filter (fun e => decide (e.1 = c))).getLast? with
  | some e => e.2
  | none => unknownLabel

structure L2Row where
  deltaTimeMs : ℤ
  priceDelta : ℤ
  size : ℤ
  entryT : ℕ
  exchCode : ℕ
deriving DecidableEq, Repr

/-- Read one 14-byte level-2 row at offset `off`. -/
def readL2Row (buf : List Byte) (off : ℕ) : Option L2Row :=
  match readLE buf off 4, readLE buf (off + 4) 4, readLE buf (off + 8) 4,
      buf[off + 12]?, buf[off + 13]? with
  | some dt, some dp, some sz, some et, some ec =>
    some ⟨toSigned 32 dt, toSigned 32 dp, toSigned 32 sz, et.val, ec.val⟩
  | _, _, _, _, _ => none

/-- One decoded level-2 event (the source also stores an ISO-string rendering
of `timestamp_ms`, which is presentation only). -/
structure L2Event where
  timestamp_ms : ℤ
  price : ℚ
  size : ℤ
  entry_type : ℕ
  exchange : List Byte
deriving DecidableEq, Repr

/-- The row loop of `parseBinaryLevel2Data`: `n` rows starting at `off`,
accumulating time `ct` and scaled price `cp`. -/
def parseL2Rows (buf : List Byte) (emap : List (ℕ × List Byte)) :
    ℕ → ℕ → ℤ → ℤ → Except DecodeError (List L2Event)
  | _, 0, _, _ => .ok []
  | off, n + 1, ct, cp =>
    match readL2Row buf off with
    | none => .error .truncatedDataError
    | some r =>
      let ct2 := ct + r.deltaTimeMs
      let cp2 := cp + r.priceDelta
      match parseL2Rows buf emap (off + 14) n ct2 cp2 with
      | .ok es =>
        .ok ({ timestamp_ms := ct2
             , price := round4 ((cp2 : ℚ) / 100000)
             , size := r.size
             , entry_type := r.entryT
             , exchange := lookupExchange emap r.exchCode } :: es)
      | .error e => .error e

/-- `parseBinaryLevel2Data`: decode the optional level-2 buffer.  `slice`
clamps the mapping bytes to the available buffer; a *negative* remaining
length yields zero loop iterations (empty result), while a fractional row
count `(length - offset) / 14` makes the final partial row read throw, which
is modelled as `truncatedDataError`. -/
def parseBinaryLevel2Data (buf : List Byte) : Except DecodeError (List L2Event) :=
  match readLE buf 0 8, readLE buf 8 4 with
  | some initTs, some mapLen =>
    let emap := buildExchangeMap ((buf.drop 12).take mapLen)
    let off := 12 + mapLen
    if buf.length ≤ off then .ok []
    else if (buf.length - off) % 14 = 0 then
      parseL2Rows buf emap off ((buf.length - off) / 14) (initTs : ℤ) 0
    else .error .truncatedDataError
  | _, _ => .error .truncatedDataError

/-- The level-2 row area start: 12 header bytes plus declared mapping length. -/
def l2RowBase (buf : List Byte) : ℕ := 12 + (readLE buf 8 4).getD 0

/-- The level-2 raw row at index `j` of the row area starting at `off`. -/
def l2RowAtOff (buf : List Byte) (off j : ℕ) : L2Row :=
  (readL2Row buf (off + 14 * j)).getD ⟨0, 0, 0, 0, 0⟩

/-- Sum of the first `m` delta-time values of rows starting at `off`. -/
def l2SumDT (buf : List Byte) (off m : ℕ) : ℤ :=
  ((List.range m).map (fun j => (l2RowAtOff buf off j).deltaTimeMs)).sum

/-- Sum of the first `m` delta-price values of rows starting at `off`. -/
def l2SumDP (buf : List Byte) (off m : ℕ) : ℤ :=
  ((List.range m).map (fun j => (l2RowAtOff buf off j).priceDelta)).sum

/-- Sum of the first `m` delta-time values of the level-2 rows. -/
def l2SumDeltaT (buf : List Byte) (m : ℕ) : ℤ := l2SumDT buf (l2RowBase buf) m

/-- Sum of the first `m` delta-price values of the level-2 rows. -/
def l2SumDeltaP (buf : List Byte) (m : ℕ) : ℤ := l2SumDP buf (l2RowBase buf) m

/-! ### Binary64 (IEEE-754 double) rounding model

`preprocessTimestamps` computes its millisecond offsets as
`Math.floor(index * (1000 / tickCount))` in binary64 arithmetic, and the
resulting floor is *not* always `⌊index·1000/tickCount⌋` (first divergence at
`tickCount = 38`, `index = 19`).  The claims about those offsets are settled
against this exact model of round-to-nearest-even at 53 significant bits
(overflow and subnormals are irrelevant at the magnitudes involved and are
not modelled). -/

/-- Round a rational to the nearest integer, ties to even. -/
def rne (y : ℚ) : ℤ :=
  if y - ⌊y⌋ < 1 / 2 then ⌊y⌋
  else if 1 / 2 < y - ⌊y⌋ then ⌊y⌋ + 1
  else if 2 ∣ ⌊y⌋ then ⌊y⌋ else ⌊y⌋ + 1

/-- `⌊log₂ q⌋` for a positive rational, via `Nat.log` on numerator and
denominator with a one-step correction. -/
def floorLog2 (q : ℚ) : ℤ :=
  if q ≤ 0 then 0
  else
    let g : ℤ := (Nat.log 2 q.num.natAbs : ℤ) - (Nat.log 2 q.den : ℤ)
    if (2 : ℚ) ^ g ≤ q then g else g - 1

/-- Binary64 rounding of a positive rational: scale into `[2^52, 2^53)`,
round to the nearest integer significand (ties to even), scale back. -/
def flPos (x : ℚ) : ℚ :=
  (rne (x / (2 : ℚ) ^ (floorLog2 x - 52)) : ℚ) * (2 : ℚ) ^ (floorLog2 x - 52)

/-- Binary64 rounding of a rational (round to nearest, ties to even). -/
def fl (q : ℚ) : ℚ :=
  if q = 0 then 0
  else if q < 0 then -flPos (-q)
  else flPos q

/-- The millisecond offset `Math.floor(index * (1000 / tickCount))` exactly
as binary64 evaluates it: both the division and the multiplication round. -/
def jsSpreadOffset (i k : ℕ) : ℤ :=
  ⌊fl ((i : ℚ) * fl ((1000 : ℚ) / (k : ℚ)))⌋

/-! ### TimestampSynthesizer: `preprocessTimestamps`

Input ticks carry an integer-millisecond timestamp (`new Date(...).getTime()`
of the decoder's ISO string).  Ticks are grouped by integer second in a JS
`Map` (iteration in first-occurrence order, arrival order inside a group),
singleton groups keep the bare second, larger groups are spread by
`jsSpreadOffset`, and the result is sorted by `adjustedTimestamp` (stable).

The final `secondTimestamp + msOffset / 1000` is modelled as an exact
rational: the offsets are integers in `[0, 999]`, so the binary64 values it
produces are within 1e-7 of rationals that are at least 1/1000 apart, and
both equality and the sort order of the doubles coincide with those of the
exact rationals. -/

/-- A tick as seen by `preprocessTimestamps`: only its timestamp (integer
milliseconds since epoch) is read; an `id` field stands for the rest of the
tick object carried through unchanged. -/
structure PTick where
  timeMs : ℤ
  id : ℕ := 0
deriving DecidableEq, Repr

/-- `Math.floor(date.getTime() / 1000)`: the tick's integer second. -/
def secOf (t : PTick) : ℤ := Int.fdiv t.timeMs 1000

/-- Spread the ticks of one group: the tick at running index `i` (0-based
arrival order) gets `adjustedTimestamp = second + msOffset / 1000` with
`msOffset = Math.floor(i * (1000 / k))` for group size `k`. -/
def assignSpread (s : ℤ) (k : ℕ) : ℕ → List PTick → List (PTick × ℚ)
  | _, [] => []
  | i, t :: ts =>
    (t, (s : ℚ) + (jsSpreadOffset i k : ℚ) / 1000) :: assignSpread s k (i + 1) ts

/-- Process one second-group: a single tick keeps the bare second, several
ticks are spread across the second. -/
def assignGroup (s : ℤ) (g : List PTick) : List (PTick × ℚ) :=
  match g with
  | [t] => [(t, (s : ℚ))]
  | _ => assignSpread s g.length 0 g

/-- The group keys (integer seconds) in first-occurrence order — the
iteration order of the JS `Map` built by the grouping pass. -/
def firstOccKeys (data : List PTick) : List ℤ :=
  data.foldl (fun ks t => if secOf t ∈ ks then ks else ks ++ [secOf t]) []

/-- `preprocessTimestamps`: group by second, assign adjusted timestamps per
group, and re-sort the concatenation by adjusted timestamp (stable, as JS
`Array.prototype.sort` is). -/
def preprocessTimestamps (data : List PTick) : List (PTick × ℚ) :=
  if data.isEmpty then []
  else
    (((firstOccKeys data).map
        (fun s => assignGroup s (data.filter (fun t => secOf t = s)))).flatten).mergeSort
      (fun a b => decide (a.2 ≤ b.2))

/-! ### Aggregator: `aggregateLineData`, `aggregateCandleData`, live updates

Ticks reaching the aggregator carry `{ time, bid, ask, mid }` where `time` is
the synthesized `adjustedTimestamp` (seconds, fractional) and
`mid = (bid + ask) / 2` was computed when the live quote arrived.  Bucket key:
`Math.floor(time / timeframe) * timeframe`. -/

structure RTick where
  time : ℚ
  bid : ℚ
  ask : ℚ
  mid : ℚ
deriving DecidableEq, Repr

structure LinePoint where
  time : ℤ
  value : ℚ
deriving DecidableEq, Repr

structure Candle where
  time : ℤ
  open_ : ℚ
  high : ℚ
  low : ℚ
  close : ℚ
deriving DecidableEq, Repr

/-- `Math.floor(tick.time / tf) * tf`. -/
def bucketOf (tf : ℤ) (t : ℚ) : ℤ := ⌊t / (tf : ℚ)⌋ * tf

/-- Fold state of `aggregateLineData`: the three emitted series plus the open
`currentTime`/`currentBid`/`currentAsk`/`currentMid` values (`none` models the
initial `null`s; the source keeps four parallel variables that are always
assigned together). -/
structure LineState where
  bidData : List LinePoint
  askData : List LinePoint
  midData : List LinePoint
  cur : Option (ℤ × ℚ × ℚ × ℚ)
deriving DecidableEq, Repr

/-- Loop body of `aggregateLineData`: on a bucket change the open point of
each series is emitted and the new bucket opens with this tick's values;
inside a bucket the open values are overwritten. -/
def lineStep (tf : ℤ) (s : LineState) (tick : RTick) : LineState :=
  let b := bucketOf tf tick.time
  match s.cur with
  | none => { s with cur := some (b, tick.bid, tick.ask, tick.mid) }
  | some (ct, cb, ca, cm) =>
    if ct = b then { s with cur := some (ct, tick.bid, tick.ask, tick.mid) }
    else
      { bidData := s.bidData ++ [⟨ct, cb⟩]
      , askData := s.askData ++ [⟨ct, ca⟩]
      , midData := s.midData ++ [⟨ct, cm⟩]
      , cur := some (b, tick.bid, tick.ask, tick.mid) }

/-- Trailing emit of `aggregateLineData`: the still-open point is appended. -/
def lineFinal (s : LineState) : List LinePoint × List LinePoint × List LinePoint :=
  match s.cur with
  | none => (s.bidData, s.askData, s.midData)
  | some (ct, cb, ca, cm) =>
    (s.bidData ++ [⟨ct, cb⟩], s.askData ++ [⟨ct, ca⟩], s.midData ++ [⟨ct, cm⟩])

/-- `aggregateLineData`: full-mode aggregation of the bid/ask/mid series. -/
def aggregateLineData (ticks : List RTick) (tf : ℤ) :
    List LinePoint × List LinePoint × List LinePoint :=
  if ticks.isEmpty then ([], [], [])
  else lineFinal (ticks.foldl (lineStep tf) ⟨[], [], [], none⟩)

/-- Loop body of `aggregateCandleData` (state: emitted candles plus the open
candle; `currentCandleTime` always equals the open candle's `time`). -/
def candleStep (tf : ℤ) (s : List Candle × Option Candle) (tick : RTick) :
    List Candle × Option Candle :=
  let b := bucketOf tf tick.time
  match s.2 with
  | none => (s.1, some ⟨b, tick.mid, tick.mid, tick.mid, tick.mid⟩)
  | some c =>
    if c.time = b then
      (s.1, some { c with high := max c.high tick.mid, low := min c.low tick.mid,
                          close := tick.mid })
    else (s.1 ++ [c], some ⟨b, tick.mid, tick.mid, tick.mid, tick.mid⟩)

/-- `aggregateCandleData`: full-mode OHLC aggregation of the mid price. -/
def aggregateCandleData (ticks : List RTick) (tf : ℤ) : List Candle :=
  if ticks.isEmpty then []
  else
    match ticks.foldl (candleStep tf) ([], none) with
    | (cs, none) => cs
    | (cs, some c) => cs ++ [c]

/-! ### EMAEngine: `calculateEMAs` and the live-tick effect -/

/-- EMA recurrence chain after the seed: `e = v * α + prev * (1 - α)`. -/
def emaFrom (a : ℚ) (prev : ℚ) : List ℚ → List ℚ
  | [] => []
  | v :: vs =>
    let e := v * a + prev * (1 - a)
    e :: emaFrom a e vs

/-- Modelled from the spec: `ta.ema` of the external `oakscriptjs` package
(not part of this repository's sources).  Spec §4.5: the EMA is seeded with
the series' first value (no warm-up skip) and then follows
`ema[t] = value[t]·α + ema[t-1]·(1-α)` with `α = 2/(period+1)`. -/
def ta_ema (src : List ℚ) (p : ℕ) : List ℚ :=
  match src with
  | [] => []
  | v :: vs => v :: emaFrom (2 / ((p : ℚ) + 1)) v vs

/-- `calculateEMAs`: compute the 9- and 20-period EMA series over the mid
line.  The source pairs each EMA value with its point's time and filters out
`null`/`NaN` values; in the exact-rational model every value is a number, so
the filter keeps every point and is omitted. -/
def calculateEMAs (midData : List LinePoint) : List LinePoint × List LinePoint :=
  let closePrices := midData.map (fun d => d.value)
  let ema9Values := ta_ema closePrices 9
  let ema20Values := ta_ema closePrices 20
  ( List.zipWith (fun (d : LinePoint) v => LinePoint.mk d.time v) midData ema9Values
  , List.zipWith (fun (d : LinePoint) v => LinePoint.mk d.time v) midData ema20Values )

/-! ### Incremental (live-tick) updates in `ChartArea` -/

/-- A live quote as delivered to the chart: `sessionData.quote = {t, bid, ask}`. -/
structure Quote where
  t : ℚ
  bid : ℚ
  ask : ℚ
deriving DecidableEq, Repr

/-- `updateLineSeries`: append a new point when the series is empty or its
last point is in an older bucket, otherwise overwrite the last point's value
in place. -/
def updateLineSeries (b : ℤ) (v : ℚ) (data : List LinePoint) : List LinePoint :=
  match data.getLast? with
  | none => data ++ [⟨b, v⟩]
  | some last =>
    if last.time = b then data.dropLast ++ [⟨b, v⟩]
    else data ++ [⟨b, v⟩]

/-- The candle branch of the live-tick effect: open a new candle on a bucket
change, otherwise update the last candle's high/low/close in place. -/
def updateCandles (b : ℤ) (mid : ℚ) (cd : List Candle) : List Candle :=
  match cd.getLast? with
  | none => cd ++ [⟨b, mid, mid, mid, mid⟩]
  | some last =>
    if last.time = b then
      cd.dropLast ++
        [{ last with high := max last.high mid, low := min last.low mid, close := mid }]
    else cd ++ [⟨b, mid, mid, mid, mid⟩]

/-- The mutable chart refs touched by the live-tick effect: the retained tick
history, the three aggregated line series, the candle series and the two EMA
series (`emaData.current`). -/
structure ChartState where
  allTicks : List RTick
  bid : List LinePoint
  ask : List LinePoint
  mid : List LinePoint
  candles : List Candle
  ema9 : List LinePoint
  ema20 : List LinePoint
deriving DecidableEq, Repr

def ChartState.empty : ChartState := ⟨[], [], [], [], [], [], []⟩

/-- One execution of the live-tick `useEffect` for a new quote: push the tick
(mid = `(bid+ask)/2`) to the history, update the three line series and the
candle series in their bucket, then recompute the EMA series **over the whole
updated mid line** (`calculateEMAs(aggregatedLineData.current.mid)`) and store
the result in `emaData.current` — only the last EMA point is subsequently
pushed to the chart surface. -/
def liveTick (tf : ℤ) (s : ChartState) (q : Quote) : ChartState :=
  let mid := (q.bid + q.ask) / 2
  let tick : RTick := ⟨q.t, q.bid, q.ask, mid⟩
  let b := bucketOf tf q.t
  let newMid := updateLineSeries b mid s.mid
  let emas := calculateEMAs newMid
  { allTicks := s.allTicks ++ [tick]
  , bid := updateLineSeries b q.bid s.bid
  , ask := updateLineSeries b q.ask s.ask
  , mid := newMid
  , candles := updateCandles b mid s.candles
  , ema9 := emas.1
  , ema20 := emas.2 }

/-- The tick an incremental quote contributes to the retained history. -/
def toRTick (q : Quote) : RTick := ⟨q.t, q.bid, q.ask, (q.bid + q.ask) / 2⟩

/-! ## Lemmas about the tick decoder -/

theorem readLE_eq_none (buf : List Byte) (off n : ℕ) (hn : 0 < n)
    (h : buf.length < off + n) : readLE buf off n = none := by
  cases h' : readLE buf off n with
  | none => rfl
  | some v =>
    have := (readLE_isSome buf off n hn).mp (by simp [h'])
    omega

theorem readLE_exists (buf : List Byte) (off n : ℕ) (h : off + n ≤ buf.length) :
    ∃ v, readLE buf off n = some v := by
  have hs : (bytesAt buf off n).isSome = true :=
    (bytesAt_isSome buf n off).mpr (Or.inr h)
  obtain ⟨bs, hbs⟩ := Option.isSome_iff_exists.mp hs
  exact ⟨leVal bs, by simp [readLE, hbs]⟩

theorem readRow_eq_none (buf : List Byte) (off : ℕ) (h : buf.length < off + 24) :
    readRow buf off = none := by
  have h5 : readLE buf (off + 20) 4 = none := readLE_eq_none buf (off + 20) 4 (by norm_num) (by omega)
  unfold readRow
  rcases h1 : readLE buf off 8 with _ | a <;>
    rcases h2 : readLE buf (off + 8) 4 with _ | b <;>
    rcases h3 : readLE buf (off + 12) 4 with _ | c <;>
    rcases h4 : readLE buf (off + 16) 4 with _ | d <;>
    simp [h5]

theorem readRow_exists (buf : List Byte) (off : ℕ) (h : off + 24 ≤ buf.length) :
    ∃ r, readRow buf off = some r := by
  obtain ⟨a, h1⟩ := readLE_exists buf off 8 (by omega)
  obtain ⟨b, h2⟩ := readLE_exists buf (off + 8) 4 (by omega)
  obtain ⟨c, h3⟩ := readLE_exists buf (off + 12) 4 (by omega)
  obtain ⟨d, h4⟩ := readLE_exists buf (off + 16) 4 (by omega)
  obtain ⟨e, h5⟩ := readLE_exists buf (off + 20) 4 (by omega)
  exact ⟨_, by unfold readRow; rw [h1, h2, h3, h4, h5]⟩

/-- On a buffer long enough for all requested rows, the row loop succeeds and
returns exactly the decoded rows in order. -/
theorem parseRows_ok (buf : List Byte) (i : ℕ) :
    ∀ (n off : ℕ), off + 24 * n ≤ buf.length →
      parseRows buf i off n =
        .ok ((List.range n).map
          (fun j => mkTick i ((readRow buf (off + 24 * j)).getD ⟨0, 0, 0, 0, 0⟩))) := by
  intro n
  induction n with
  | zero => intro off _; simp [parseRows]
  | succ n ih =>
    intro off hlen
    obtain ⟨r, hr⟩ := readRow_exists buf off (by omega)
    unfold parseRows
    rw [hr, ih (off + 24) (by omega)]
    rw [List.range_succ_eq_map, List.map_cons, List.map_map]
    simp only [Except.ok.injEq]
    congr 1
    · simp [hr]
    · apply List.map_congr_left
      intro j _
      have harith : off + 24 + 24 * j = off + 24 * (j + 1) := by omega
      simp [Function.comp, harith]

/-- With fewer bytes than the requested rows need, the row loop aborts. -/
theorem parseRows_error (buf : List Byte) (i : ℕ) :
    ∀ (n off : ℕ), buf.length < off + 24 * n → 0 < n →
      parseRows buf i off n = .error .truncatedDataError := by
  intro n
  induction n with
  | zero => intro off _ h; omega
  | succ n ih =>
    intro off hlen _
    by_cases ho : buf.length < off + 24
    · unfold parseRows
      rw [readRow_eq_none buf off ho]
    · push_neg at ho
      obtain ⟨r, hr⟩ := readRow_exists buf off ho
      unfold parseRows
      rw [hr, ih (off + 24) (by omega) (by omega)]

/-- A successful header decode reduces `parseBinaryData` to the row loop. -/
theorem parseBinaryData_eq_rows (buf : List Byte)
    (hmagic : bytesAt buf 0 4 = some tickMagic) (hlen : 17 ≤ buf.length) :
    parseBinaryData buf =
      parseRows buf (declaredInitTs buf) 17 (declaredRows buf) := by
  obtain ⟨v4, hv4⟩ : ∃ v, buf[4]? = some v :=
    ⟨buf[4], List.getElem?_eq_some_iff.mpr ⟨by omega, rfl⟩⟩
  obtain ⟨nr, hnr⟩ := readLE_exists buf 5 4 (by omega)
  obtain ⟨ts0, hts0⟩ := readLE_exists buf 9 8 (by omega)
  unfold parseBinaryData
  rw [hmagic, hv4, hnr, hts0]
  simp [declaredRows, declaredInitTs, hnr, hts0]

/-- C2 (amended): for every buffer whose magic matches and which holds at
least `17 + 24·N` bytes for the declared row count `N`, the decode succeeds
with exactly `N` ticks, and the `j`-th tick's absolute timestamp equals the
header's initial timestamp plus **the `j`-th row's delta-time value** (the
source adds each row's delta to the header timestamp, never to the previous
row's absolute time). -/
theorem parseBinaryData_count_and_times (buf : List Byte)
    (hmagic : bytesAt buf 0 4 = some tickMagic)
    (hlen : 17 + 24 * declaredRows buf ≤ buf.length) :
    ∃ ts, parseBinaryData buf = .ok ts ∧ ts.length = declaredRows buf ∧
      ∀ (j : ℕ) (hj : j < ts.length),
        ts[j].timestampUs = (declaredInitTs buf : ℤ) + (rowAt buf j).deltaTimeUs := by
  rw [parseBinaryData_eq_rows buf hmagic (by omega)]
  rw [parseRows_ok buf (declaredInitTs buf) (declaredRows buf) 17 (by omega)]
  refine ⟨_, rfl, by simp, ?_⟩
  intro j hj
  simp only [List.length_map, List.length_range] at hj
  simp [List.getElem_map, List.getElem_range, mkTick, rowAt]

/-- Tick buffer used to refute C2's cumulative-timestamp reading: header
`TICK`, version 1, two rows, initial timestamp 0; both rows carry
`deltaTimeUs = 1` (prices and sizes zero). -/
def c2buf : List Byte :=
  [84, 73, 67, 75, 1, 2, 0, 0, 0, 0, 0, 0, 0, 0, 0, 0, 0] ++
    ([1, 0, 0, 0, 0, 0, 0, 0] ++ List.replicate 16 0) ++
    ([1, 0, 0, 0, 0, 0, 0, 0] ++ List.replicate 16 0)

/-- C2 (counterexample): on `c2buf` the decoded timestamps are `[1, 1]`,
but the claim's running-sum rule demands that the second tick's timestamp be
`initial + (delta₀ + delta₁) = 2`. -/
theorem c2_cumulative_counterexample :
    (parseBinaryData c2buf).toOption.map (fun ts => ts.map Tick.timestampUs) =
        some [1, 1] ∧
      (declaredInitTs c2buf : ℤ) +
          ((rowAt c2buf 0).deltaTimeUs + (rowAt c2buf 1).deltaTimeUs) = 2 ∧
      (1 : ℤ) ≠ 2 := by
  refine ⟨by decide, by decide, by decide⟩

/-- Witness: `parseBinaryData_count_and_times` applied to `c2buf`. -/
theorem parseBinaryData_count_and_times_witness :
    bytesAt c2buf 0 4 = some tickMagic ∧
      17 + 24 * declaredRows c2buf ≤ c2buf.length ∧
      ∃ ts, parseBinaryData c2buf = .ok ts ∧ ts.length = declaredRows c2buf ∧
        ∀ (j : ℕ) (hj : j < ts.length),
          ts[j].timestampUs = (declaredInitTs c2buf : ℤ) + (rowAt c2buf j).deltaTimeUs :=
  ⟨by decide, by decide,
    parseBinaryData_count_and_times c2buf (by decide) (by decide)⟩

/-- C5: a buffer whose magic matches but which is shorter than
`17 + 24·N` bytes (with `N` the declared row count readable from a buffer of
at least 13 bytes) fails with `truncatedDataError` — no ticks are returned. -/
theorem parseBinaryData_truncated (buf : List Byte)
    (h13 : 13 ≤ buf.length)
    (hmagic : bytesAt buf 0 4 = some tickMagic)
    (hshort : buf.length < 17 + 24 * declaredRows buf) :
    parseBinaryData buf = .error .truncatedDataError := by
  by_cases h17 : buf.length < 17
  · obtain ⟨v4, hv4⟩ : ∃ v, buf[4]? = some v :=
      ⟨buf[4], List.getElem?_eq_some_iff.mpr ⟨by omega, rfl⟩⟩
    obtain ⟨nr, hnr⟩ := readLE_exists buf 5 4 (by omega)
    have hts : readLE buf 9 8 = none := readLE_eq_none buf 9 8 (by norm_num) (by omega)
    unfold parseBinaryData
    rw [hmagic, hv4, hnr, hts]
  · push_neg at h17
    rw [parseBinaryData_eq_rows buf hmagic h17]
    exact parseRows_error buf (declaredInitTs buf) (declaredRows buf) 17
      (by omega) (by omega)

/-- Tick buffer for the C5 witness: valid `TICK` header declaring one row,
but no row bytes at all (17 bytes total). -/
def c5buf : List Byte := [84, 73, 67, 75, 1, 1, 0, 0, 0, 0, 0, 0, 0, 0, 0, 0, 0]

/-- Witness: `parseBinaryData_truncated` applied to `c5buf`. -/
theorem parseBinaryData_truncated_witness :
    13 ≤ c5buf.length ∧ bytesAt c5buf 0 4 = some tickMagic ∧
      c5buf.length < 17 + 24 * declaredRows c5buf ∧
      parseBinaryData c5buf = .error .truncatedDataError :=
  ⟨by decide, by decide, by decide,
    parseBinaryData_truncated c5buf (by decide) (by decide) (by decide)⟩

theorem parseRows_fixed_digits (buf : List Byte) (i : ℕ) :
    ∀ (n off : ℕ) (ts : List Tick), parseRows buf i off n = .ok ts →
      ∀ t ∈ ts, t.priceBid.frac.length = 5 ∧ t.priceAsk.frac.length = 5 ∧
        t.sizeBid.frac.length = 2 ∧ t.sizeAsk.frac.length = 2 := by
  intro n
  induction n with
  | zero =>
    intro off ts h t ht
    unfold parseRows at h
    simp only [Except.ok.injEq] at h
    subst h
    simp at ht
  | succ n ih =>
    intro off ts h t ht
    unfold parseRows at h
    rcases hr : readRow buf off with _ | r <;> rw [hr] at h
    · exact absurd h (by simp)
    · rcases hrec : parseRows buf i (off + 24) n with e | ts' <;> rw [hrec] at h
      · exact absurd h (by simp)
      · simp only [Except.ok.injEq] at h
        subst h
        rcases List.mem_cons.mp ht with h1 | h1
        · subst h1
          simp [mkTick, fixedOfScaled_frac_length]
        · exact ih (off + 24) ts' hrec t h1

/-- C9: every decoded tick's price fields carry exactly five fractional
digits and its size fields exactly two — the decode output is fixed-format
decimal text (`toFixed(5)` / `toFixed(2)` of the scaled integers), not raw
numbers. -/
theorem parseBinaryData_fixed_digits (buf : List Byte) (ts : List Tick)
    (h : parseBinaryData buf = .ok ts) :
    ∀ t ∈ ts, t.priceBid.frac.length = 5 ∧ t.priceAsk.frac.length = 5 ∧
      t.sizeBid.frac.length = 2 ∧ t.sizeAsk.frac.length = 2 := by
  unfold parseBinaryData at h
  rcases h1 : bytesAt buf 0 4 with _ | magic <;> rw [h1] at h
  · exact absurd h (by simp)
  rcases h2 : buf[4]? with _ | v4 <;> rw [h2] at h
  · exact absurd h (by simp)
  rcases h3 : readLE buf 5 4 with _ | nr <;> rw [h3] at h
  · exact absurd h (by simp)
  rcases h4 : readLE buf 9 8 with _ | i0 <;> rw [h4] at h
  · exact absurd h (by simp)
  dsimp only at h
  by_cases hm : magic = tickMagic
  · rw [if_pos hm] at h
    exact parseRows_fixed_digits buf i0 nr 17 ts h
  · rw [if_neg hm] at h
    exact absurd h (by simp)

/-! ## Lemmas about the level-2 decoder -/

theorem l2SumDT_succ (buf : List Byte) (off m : ℕ) :
    l2SumDT buf off (m + 1) =
      (l2RowAtOff buf off 0).deltaTimeMs + l2SumDT buf (off + 14) m := by
  unfold l2SumDT
  rw [List.range_succ_eq_map, List.map_cons, List.map_map, List.sum_cons]
  congr 1
  apply congrArg
  apply List.map_congr_left
  intro j _
  have harith : off + 14 * (j + 1) = off + 14 + 14 * j := by omega
  simp [Function.comp, l2RowAtOff, harith]

theorem l2SumDP_succ (buf : List Byte) (off m : ℕ) :
    l2SumDP buf off (m + 1) =
      (l2RowAtOff buf off 0).priceDelta + l2SumDP buf (off + 14) m := by
  unfold l2SumDP
  rw [List.range_succ_eq_map, List.map_cons, List.map_map, List.sum_cons]
  congr 1
  apply congrArg
  apply List.map_congr_left
  intro j _
  have harith : off + 14 * (j + 1) = off + 14 + 14 * j := by omega
  simp [Function.comp, l2RowAtOff, harith]

/-- A successful level-2 row loop yields events whose timestamps and scaled
prices are the running cumulative sums of the row deltas. -/
theorem parseL2Rows_spec (buf : List Byte) (emap : List (ℕ × List Byte)) :
    ∀ (n off : ℕ) (ct cp : ℤ) (es : List L2Event),
      parseL2Rows buf emap off n ct cp = .ok es →
      es.length = n ∧
        ∀ (k : ℕ) (hk : k < es.length),
          es[k].timestamp_ms = ct + l2SumDT buf off (k + 1) ∧
          es[k].price = round4 (((cp + l2SumDP buf off (k + 1) : ℤ) : ℚ) / 100000) := by
  intro n
  induction n with
  | zero =>
    intro off ct cp es h
    unfold parseL2Rows at h
    simp only [Except.ok.injEq] at h
    subst h
    exact ⟨rfl, fun k hk => absurd hk (by simp)⟩
  | succ n ih =>
    intro off ct cp es h
    unfold parseL2Rows at h
    rcases hr : readL2Row buf off with _ | r <;> rw [hr] at h
    · exact absurd h (by simp)
    dsimp only at h
    rcases hrec : parseL2Rows buf emap (off + 14) n (ct + r.deltaTimeMs) (cp + r.priceDelta)
        with e | es' <;> rw [hrec] at h
    · exact absurd h (by simp)
    simp only [Except.ok.injEq] at h
    subst h
    obtain ⟨hlen, hrest⟩ := ih (off + 14) (ct + r.deltaTimeMs) (cp + r.priceDelta) es' hrec
    have hrow0 : l2RowAtOff buf off 0 = r := by simp [l2RowAtOff, hr]
    refine ⟨by simp [hlen], ?_⟩
    intro k hk
    match k with
    | 0 =>
      constructor
      · show ct + r.deltaTimeMs = ct + l2SumDT buf off 1
        rw [l2SumDT_succ, hrow0]
        simp [l2SumDT]
      · show round4 (((cp + r.priceDelta : ℤ) : ℚ) / 100000) = _
        rw [l2SumDP_succ, hrow0]
        simp [l2SumDP]
    | k + 1 =>
      have hk' : k < es'.length := by
        simp only [List.length_cons] at hk
        omega
      obtain ⟨ht, hp⟩ := hrest k hk'
      constructor
      · show es'[k].timestamp_ms = ct + l2SumDT buf off (k + 1 + 1)
        rw [ht, l2SumDT_succ buf off (k + 1), hrow0]
        ring
      · show es'[k].price = round4 (((cp + l2SumDP buf off (k + 1 + 1) : ℤ) : ℚ) / 100000)
        rw [hp, l2SumDP_succ buf off (k + 1), hrow0]
        congr 2
        push_cast
        ring

/-- C6 (amended): every decoded level-2 event's timestamp is the header's
initial millisecond timestamp plus the running sum of the delta-time values,
and its price is the running sum of the signed delta-price values divided by
100000 **and rounded to four decimal places** (`parseFloat(x.toFixed(4))` in
the source). -/
theorem parseBinaryLevel2Data_cumulative (buf : List Byte) (es : List L2Event)
    (h : parseBinaryLevel2Data buf = .ok es) :
    ∀ (k : ℕ) (hk : k < es.length),
      es[k].timestamp_ms = ((readLE buf 0 8).getD 0 : ℤ) + l2SumDeltaT buf (k + 1) ∧
      es[k].price = round4 ((l2SumDeltaP buf (k + 1) : ℚ) / 100000) := by
  unfold parseBinaryLevel2Data at h
  rcases h1 : readLE buf 0 8 with _ | initTs <;> rw [h1] at h
  · exact absurd h (by simp)
  rcases h2 : readLE buf 8 4 with _ | mapLen <;> rw [h2] at h
  · exact absurd h (by simp)
  dsimp only at h
  by_cases hsh : buf.length ≤ 12 + mapLen
  · rw [if_pos hsh] at h
    simp only [Except.ok.injEq] at h
    subst h
    exact fun k hk => absurd hk (by simp)
  · rw [if_neg hsh] at h
    by_cases hmod : (buf.length - (12 + mapLen)) % 14 = 0
    · rw [if_pos hmod] at h
      obtain ⟨_, hrest⟩ := parseL2Rows_spec buf _ _ _ _ _ es h
      intro k hk
      obtain ⟨ht, hp⟩ := hrest k hk
      have hbase : l2RowBase buf = 12 + mapLen := by simp [l2RowBase, h2]
      refine ⟨?_, ?_⟩
      · rw [ht]
        simp [l2SumDeltaT, hbase, h1]
      · rw [hp]
        simp [l2SumDeltaP, hbase]
    · rw [if_neg hmod] at h
      exact absurd h (by simp)

/-- Level-2 buffer used for C6: initial timestamp 0, empty mapping, one row
with `deltaTime = 0`, `priceDelta = 1`, `size = 0`, bid entry, exchange 0. -/
def c6buf : List Byte :=
  List.replicate 8 0 ++ [0, 0, 0, 0] ++
    [0, 0, 0, 0, 1, 0, 0, 0, 0, 0, 0, 0, 0, 0]

/-- The single event decoded from `c6buf`. -/
def c6event : L2Event :=
  { timestamp_ms := 0, price := 0, size := 0, entry_type := 0, exchange := unknownLabel }

/-- Evaluation of the decoder on `c6buf` (shared by the counterexample and
the witness below). -/
theorem c6buf_parse_eval : parseBinaryLevel2Data c6buf = .ok [c6event] := by
  have h1 : readLE c6buf 0 8 = some 0 := by rfl
  have h2 : readLE c6buf 8 4 = some 0 := by rfl
  have h3 : readL2Row c6buf 12 = some ⟨0, 1, 0, 0, 0⟩ := by rfl
  have hlen : c6buf.length = 26 := by rfl
  unfold parseBinaryLevel2Data
  rw [h1, h2]
  dsimp only
  rw [if_neg (by rw [hlen]; omega), if_pos (by rw [hlen])]
  have h26 : c6buf.length - (12 + 0) = 14 := by rw [hlen]
  rw [h26]
  show parseL2Rows c6buf _ (12 + 0) (14 / 14) 0 0 = _
  have h14 : (14 : ℕ) / 14 = 0 + 1 := by norm_num
  rw [h14]
  unfold parseL2Rows
  rw [show (12 + 0 : ℕ) = 12 from rfl, h3]
  dsimp only
  rw [show parseL2Rows c6buf (buildExchangeMap ((c6buf.drop 12).take 0)) (12 + 14) 0
        (0 + (0 : ℤ)) (0 + (1 : ℤ)) = .ok [] from rfl]
  have hlook : lookupExchange (buildExchangeMap ((c6buf.drop 12).take 0)) 0 = unknownLabel := by
    rfl
  simp only [hlook, c6event, Except.ok.injEq, List.cons.injEq, L2Event.mk.injEq, and_true,
    add_zero, zero_add]
  norm_num [round4]

/-- C6 (counterexample): on `c6buf` the cumulative scaled price after one row
is 1, so the claim demands price `1/100000 = 0.00001`; the decoded price is
`0` because the source rounds with `toFixed(4)` before emitting. -/
theorem c6_price_counterexample :
    parseBinaryLevel2Data c6buf = .ok [c6event] ∧ c6event.price = 0 ∧
      (l2SumDeltaP c6buf 1 : ℚ) / 100000 = 1 / 100000 ∧
      (0 : ℚ) ≠ 1 / 100000 := by
  refine ⟨c6buf_parse_eval, rfl, ?_, by norm_num⟩
  have hp : l2SumDeltaP c6buf 1 = 1 := by rfl
  rw [hp]
  norm_num

/-- Witness: `parseBinaryLevel2Data_cumulative` applied to `c6buf`. -/
theorem parseBinaryLevel2Data_cumulative_witness :
    parseBinaryLevel2Data c6buf = .ok [c6event] ∧
      c6event.timestamp_ms = ((readLE c6buf 0 8).getD 0 : ℤ) + l2SumDeltaT c6buf 1 ∧
      c6event.price = round4 ((l2SumDeltaP c6buf 1 : ℚ) / 100000) :=
  ⟨c6buf_parse_eval,
    (parseBinaryLevel2Data_cumulative c6buf [c6event] c6buf_parse_eval 0 (by norm_num)).1,
    (parseBinaryLevel2Data_cumulative c6buf [c6event] c6buf_parse_eval 0 (by norm_num)).2⟩

/-- Tick buffer for the C9 witness: one row, bid 1.50000 / ask 1.50200,
sizes 1.00 (scaled: 150000, 150200, 100, 100). -/
def c9buf : List Byte :=
  [84, 73, 67, 75, 1, 1, 0, 0, 0, 0, 0, 0, 0, 0, 0, 0, 0] ++
    ([0, 0, 0, 0, 0, 0, 0, 0] ++ [240, 73, 2, 0] ++ [184, 74, 2, 0] ++
      [100, 0, 0, 0] ++ [100, 0, 0, 0])

/-- Witness: `parseBinaryData_fixed_digits` applied to `c9buf`. -/
theorem parseBinaryData_fixed_digits_witness :
    parseBinaryData c9buf =
        .ok [{ timestampUs := 0
             , priceBid := ⟨false, 1, [5, 0, 0, 0, 0]⟩
             , priceAsk := ⟨false, 1, [5, 0, 2, 0, 0]⟩
             , sizeBid := ⟨false, 1, [0, 0]⟩
             , sizeAsk := ⟨false, 1, [0, 0]⟩ }] ∧
      ∀ t ∈ [({ timestampUs := 0
              , priceBid := ⟨false, 1, [5, 0, 0, 0, 0]⟩
              , priceAsk := ⟨false, 1, [5, 0, 2, 0, 0]⟩
              , sizeBid := ⟨false, 1, [0, 0]⟩
              , sizeAsk := ⟨false, 1, [0, 0]⟩ } : Tick)],
        t.priceBid.frac.length = 5 ∧ t.priceAsk.frac.length = 5 ∧
          t.sizeBid.frac.length = 2 ∧ t.sizeAsk.frac.length = 2 :=
  ⟨by decide, parseBinaryData_fixed_digits c9buf _ (by decide)⟩

/-! ## Aggregator: incremental/full equivalence (C1) -/

/-- The open (not yet emitted) bid point of the full-mode fold state. -/
def curPtBid : Option (ℤ × ℚ × ℚ × ℚ) → List LinePoint
  | none => []
  | some (ct, cb, _, _) => [⟨ct, cb⟩]

/-- The open ask point of the full-mode fold state. -/
def curPtAsk : Option (ℤ × ℚ × ℚ × ℚ) → List LinePoint
  | none => []
  | some (ct, _, ca, _) => [⟨ct, ca⟩]

/-- The open mid point of the full-mode fold state. -/
def curPtMid : Option (ℤ × ℚ × ℚ × ℚ) → List LinePoint
  | none => []
  | some (ct, _, _, cm) => [⟨ct, cm⟩]

/-- Simulation invariant between the full-mode fold states (lines and
candles) and the incrementally maintained chart state: the incremental
arrays always equal the emitted prefix plus the open point/candle, and an
absent open point can only coexist with empty emitted series (true of all
reachable full-mode states). -/
def AggInv (ls : LineState) (cs : List Candle × Option Candle) (s : ChartState) : Prop :=
  s.bid = ls.bidData ++ curPtBid ls.cur ∧
  s.ask = ls.askData ++ curPtAsk ls.cur ∧
  s.mid = ls.midData ++ curPtMid ls.cur ∧
  s.candles = cs.1 ++ cs.2.toList ∧
  (ls.cur = none → ls.bidData = [] ∧ ls.askData = [] ∧ ls.midData = []) ∧
  (cs.2 = none → cs.1 = [])

theorem updateLineSeries_append_open (b : ℤ) (v : ℚ) (ct : ℤ) (cv : ℚ)
    (E : List LinePoint) :
    updateLineSeries b v (E ++ [⟨ct, cv⟩]) =
      if ct = b then E ++ [⟨b, v⟩] else (E ++ [⟨ct, cv⟩]) ++ [⟨b, v⟩] := by
  unfold updateLineSeries
  have hlast : (E ++ [(⟨ct, cv⟩ : LinePoint)]).getLast? = some ⟨ct, cv⟩ := by simp
  rw [hlast]
  by_cases hct : ct = b <;> simp [hct]

theorem updateCandles_append_open (b : ℤ) (m : ℚ) (c : Candle) (E : List Candle) :
    updateCandles b m (E ++ [c]) =
      if c.time = b then
        E ++ [{ c with high := max c.high m, low := min c.low m, close := m }]
      else (E ++ [c]) ++ [⟨b, m, m, m, m⟩] := by
  unfold updateCandles
  have hlast : (E ++ [c]).getLast? = some c := by simp
  rw [hlast]
  by_cases hct : c.time = b <;> simp [hct]

/-- One live tick preserves the simulation invariant. -/
theorem AggInv_step (tf : ℤ) (ls : LineState) (cs : List Candle × Option Candle)
    (s : ChartState) (q : Quote) (h : AggInv ls cs s) :
    AggInv (lineStep tf ls (toRTick q)) (candleStep tf cs (toRTick q)) (liveTick tf s q) := by
  obtain ⟨hb, ha, hm, hc, hline0, hcand0⟩ := h
  constructor
  · -- bid series
    show (liveTick tf s q).bid = _
    unfold liveTick lineStep toRTick
    dsimp only
    rw [hb]
    cases hcur : ls.cur with
    | none =>
      obtain ⟨h1, _, _⟩ := hline0 hcur
      simp [h1, curPtBid, updateLineSeries]
    | some t =>
      obtain ⟨ct, cb, ca, cm⟩ := t
      rw [show curPtBid (some (ct, cb, ca, cm)) = [⟨ct, cb⟩] from rfl,
        updateLineSeries_append_open]
      by_cases hct : ct = bucketOf tf q.t <;> simp [hct, curPtBid]
  constructor
  · -- ask series
    show (liveTick tf s q).ask = _
    unfold liveTick lineStep toRTick
    dsimp only
    rw [ha]
    cases hcur : ls.cur with
    | none =>
      obtain ⟨_, h1, _⟩ := hline0 hcur
      simp [h1, curPtAsk, updateLineSeries]
    | some t =>
      obtain ⟨ct, cb, ca, cm⟩ := t
      rw [show curPtAsk (some (ct, cb, ca, cm)) = [⟨ct, ca⟩] from rfl,
        updateLineSeries_append_open]
      by_cases hct : ct = bucketOf tf q.t <;> simp [hct, curPtAsk]
  constructor
  · -- mid series
    show (liveTick tf s q).mid = _
    unfold liveTick lineStep toRTick
    dsimp only
    rw [hm]
    cases hcur : ls.cur with
    | none =>
      obtain ⟨_, _, h1⟩ := hline0 hcur
      simp [h1, curPtMid, updateLineSeries]
    | some t =>
      obtain ⟨ct, cb, ca, cm⟩ := t
      rw [show curPtMid (some (ct, cb, ca, cm)) = [⟨ct, cm⟩] from rfl,
        updateLineSeries_append_open]
      by_cases hct : ct = bucketOf tf q.t <;> simp [hct, curPtMid]
  constructor
  · -- candle series
    show (liveTick tf s q).candles = _
    unfold liveTick candleStep toRTick
    dsimp only
    rw [hc]
    cases hcur : cs.2 with
    | none =>
      have h1 := hcand0 hcur
      simp [h1, updateCandles]
    | some c =>
      rw [show (some c).toList = [c] from rfl, updateCandles_append_open]
      by_cases hct : c.time = bucketOf tf q.t <;> simp [hct]
  constructor
  · -- the line fold's open point is always present after a step
    unfold lineStep
    cases ls.cur with
    | none => simp
    | some t =>
      obtain ⟨ct, cb, ca, cm⟩ := t
      by_cases hct : ct = bucketOf tf (toRTick q).time <;> simp [hct]
  · -- the candle fold's open candle is always present after a step
    unfold candleStep
    cases cs.2 with
    | none => simp
    | some c =>
      by_cases hct : c.time = bucketOf tf (toRTick q).time <;> simp [hct]

theorem AggInv_fold (tf : ℤ) (quotes : List Quote) :
    ∀ (ls : LineState) (cs : List Candle × Option Candle) (s : ChartState),
      AggInv ls cs s →
      AggInv ((quotes.map toRTick).foldl (lineStep tf) ls)
        ((quotes.map toRTick).foldl (candleStep tf) cs)
        (quotes.foldl (liveTick tf) s) := by
  induction quotes with
  | nil => intro ls cs s h; exact h
  | cons q qs ih =>
    intro ls cs s h
    simp only [List.map_cons, List.foldl_cons]
    exact ih _ _ _ (AggInv_step tf ls cs s q h)

/-- C1: feeding any quote sequence tick-by-tick through the live-tick update
from the empty chart state yields exactly the bid/ask/mid line series and the
candle series that full-mode aggregation produces over the same ticks with
the same timeframe. -/
theorem aggregator_incremental_full_equiv (quotes : List Quote) (tf : ℤ) :
    ((quotes.foldl (liveTick tf) ChartState.empty).bid,
        (quotes.foldl (liveTick tf) ChartState.empty).ask,
        (quotes.foldl (liveTick tf) ChartState.empty).mid) =
      aggregateLineData (quotes.map toRTick) tf ∧
    (quotes.foldl (liveTick tf) ChartState.empty).candles =
      aggregateCandleData (quotes.map toRTick) tf := by
  cases quotes with
  | nil => simp [aggregateLineData, aggregateCandleData, ChartState.empty]
  | cons q qs =>
    have h0 : AggInv ⟨[], [], [], none⟩ ([], none) ChartState.empty := by
      simp [AggInv, ChartState.empty, curPtBid, curPtAsk, curPtMid]
    have hinv := AggInv_fold tf (q :: qs) ⟨[], [], [], none⟩ ([], none) ChartState.empty h0
    obtain ⟨hb, ha, hm, hc, _, _⟩ := hinv
    constructor
    · rw [hb, ha, hm]
      unfold aggregateLineData
      rw [if_neg (by simp)]
      unfold lineFinal
      cases hcur : ((q :: qs).map toRTick).foldl (lineStep tf) ⟨[], [], [], none⟩ with
      | mk bd ad md cur =>
        cases cur with
        | none => simp [curPtBid, curPtAsk, curPtMid]
        | some t =>
          obtain ⟨ct, cb, ca, cm⟩ := t
          simp [curPtBid, curPtAsk, curPtMid]
    · rw [hc]
      unfold aggregateCandleData
      rw [if_neg (by simp)]
      cases hfold : ((q :: qs).map toRTick).foldl (candleStep tf) ([], none) with
      | mk cs1 cur =>
        cases cur with
        | none => simp
        | some c => simp

/-! ## Candle invariant (C7) -/

/-- The OHLC sanity invariant of a candle. -/
def CandleOK (c : Candle) : Prop :=
  c.low ≤ min c.open_ c.close ∧ max c.open_ c.close ≤ c.high

theorem CandleOK_seed (b : ℤ) (m : ℚ) : CandleOK ⟨b, m, m, m, m⟩ := by
  constructor <;> simp [CandleOK]

theorem CandleOK_update (c : Candle) (m : ℚ) (h : CandleOK c) :
    CandleOK { c with high := max c.high m, low := min c.low m, close := m } := by
  obtain ⟨hl, hh⟩ := h
  constructor
  · dsimp only
    have h1 : c.low ≤ c.open_ := le_trans hl (min_le_left _ _)
    exact le_min (le_trans (min_le_left _ _) h1) (min_le_right _ _)
  · dsimp only
    have h1 : c.open_ ≤ c.high := le_trans (le_max_left _ _) hh
    exact max_le (le_trans h1 (le_max_left _ _)) (le_max_right _ _)

/-- The full-mode candle fold keeps every candle (emitted or open) sane. -/
theorem candleStep_ok (tf : ℤ) (st : List Candle × Option Candle) (t : RTick)
    (h1 : ∀ c ∈ st.1, CandleOK c) (h2 : ∀ c ∈ st.2.toList, CandleOK c) :
    (∀ c ∈ (candleStep tf st t).1, CandleOK c) ∧
      (∀ c ∈ (candleStep tf st t).2.toList, CandleOK c) := by
  unfold candleStep
  cases hcur : st.2 with
  | none =>
    refine ⟨h1, ?_⟩
    intro c hcmem
    simp only [Option.toList_some, List.mem_singleton] at hcmem
    subst hcmem
    exact CandleOK_seed _ _
  | some c0 =>
    have hc0 : CandleOK c0 := h2 c0 (by simp [hcur])
    dsimp only
    by_cases hct : c0.time = bucketOf tf t.time
    · rw [if_pos hct]
      refine ⟨h1, ?_⟩
      intro c hcmem
      simp only [Option.toList_some, List.mem_singleton] at hcmem
      subst hcmem
      exact CandleOK_update c0 t.mid hc0
    · rw [if_neg hct]
      refine ⟨?_, ?_⟩
      · intro c hcmem
        rcases List.mem_append.mp hcmem with hin | hin
        · exact h1 c hin
        · rw [List.mem_singleton.mp hin]
          exact hc0
      · intro c hcmem
        simp only [Option.toList_some, List.mem_singleton] at hcmem
        subst hcmem
        exact CandleOK_seed _ _

theorem candleFold_ok (tf : ℤ) (ticks : List RTick) :
    ∀ (st : List Candle × Option Candle),
      (∀ c ∈ st.1, CandleOK c) → (∀ c ∈ st.2.toList, CandleOK c) →
      (∀ c ∈ (ticks.foldl (candleStep tf) st).1, CandleOK c) ∧
        (∀ c ∈ (ticks.foldl (candleStep tf) st).2.toList, CandleOK c) := by
  induction ticks with
  | nil => intro st h1 h2; exact ⟨h1, h2⟩
  | cons t ts ih =>
    intro st h1 h2
    obtain ⟨h1', h2'⟩ := candleStep_ok tf st t h1 h2
    exact ih _ h1' h2'

/-- The incremental candle update keeps every candle sane. -/
theorem updateCandles_ok (b : ℤ) (m : ℚ) (cd : List Candle)
    (h : ∀ c ∈ cd, CandleOK c) : ∀ c ∈ updateCandles b m cd, CandleOK c := by
  unfold updateCandles
  cases hlast : cd.getLast? with
  | none =>
    intro c hcmem
    rcases List.mem_append.mp hcmem with hin | hin
    · exact h c hin
    · rw [List.mem_singleton.mp hin]
      exact CandleOK_seed _ _
  | some last =>
    have hlmem : last ∈ cd :=
      List.mem_of_mem_getLast? (show last ∈ cd.getLast? by rw [hlast]; rfl)
    dsimp only
    by_cases hct : last.time = b
    · rw [if_pos hct]
      intro c hcmem
      rcases List.mem_append.mp hcmem with hin | hin
      · exact h c (List.dropLast_subset cd hin)
      · rw [List.mem_singleton.mp hin]
        exact CandleOK_update last m (h last hlmem)
    · rw [if_neg hct]
      intro c hcmem
      rcases List.mem_append.mp hcmem with hin | hin
      · exact h c hin
      · rw [List.mem_singleton.mp hin]
        exact CandleOK_seed _ _

theorem liveTickFold_candles_ok (tf : ℤ) (quotes : List Quote) :
    ∀ (s : ChartState), (∀ c ∈ s.candles, CandleOK c) →
      ∀ c ∈ (quotes.foldl (liveTick tf) s).candles, CandleOK c := by
  induction quotes with
  | nil => intro s h; exact h
  | cons q qs ih =>
    intro s h
    simp only [List.foldl_cons]
    apply ih
    show ∀ c ∈ updateCandles (bucketOf tf q.t) ((q.bid + q.ask) / 2) s.candles, CandleOK c
    exact updateCandles_ok _ _ _ h

/-- C7: every candle produced by full-mode aggregation, and every candle held
in the incrementally updated series after any number of live ticks (hence
also at every moment of a candle's open lifetime), satisfies
`low ≤ min(open, close)` and `max(open, close) ≤ high`. -/
theorem candle_invariant (ticks : List RTick) (quotes : List Quote) (tf : ℤ) :
    (∀ c ∈ aggregateCandleData ticks tf, CandleOK c) ∧
      (∀ c ∈ (quotes.foldl (liveTick tf) ChartState.empty).candles, CandleOK c) := by
  constructor
  · intro c hcmem
    unfold aggregateCandleData at hcmem
    by_cases hte : ticks.isEmpty
    · rw [if_pos hte] at hcmem
      exact absurd hcmem (by simp)
    · rw [if_neg hte] at hcmem
      obtain ⟨h1, h2⟩ := candleFold_ok tf ticks ([], none) (by simp) (by simp)
      rcases hfold : ticks.foldl (candleStep tf) ([], none) with ⟨cs1, cur⟩
      rw [hfold] at hcmem h1 h2
      cases cur with
      | none => exact h1 c hcmem
      | some c0 =>
        rcases List.mem_append.mp hcmem with hin | hin
        · exact h1 c hin
        · rw [List.mem_singleton.mp hin]
          exact h2 c0 (by simp)
  · exact liveTickFold_candles_ok tf quotes ChartState.empty (by simp [ChartState.empty])

/-- Witness: `candle_invariant` applied to one tick (bid 1, ask 3, mid 2)
with timeframe 1. -/
theorem candle_invariant_witness :
    (⟨0, 2, 2, 2, 2⟩ : Candle) ∈ aggregateCandleData [⟨0, 1, 3, 2⟩] 1 ∧
      CandleOK ⟨0, 2, 2, 2, 2⟩ := by
  have hmem : (⟨0, 2, 2, 2, 2⟩ : Candle) ∈ aggregateCandleData [⟨0, 1, 3, 2⟩] 1 := by
    have hb : bucketOf 1 (0 : ℚ) = 0 := by norm_num [bucketOf]
    simp [aggregateCandleData, candleStep, hb]
  exact ⟨hmem, (candle_invariant [⟨0, 1, 3, 2⟩] [] 1).1 _ hmem⟩

/-! ## EMAEngine (C3, C8) -/

theorem emaFrom_length (a prev : ℚ) : ∀ l : List ℚ, (emaFrom a prev l).length = l.length := by
  intro l
  induction l generalizing prev with
  | nil => simp [emaFrom]
  | cons v vs ih => simp [emaFrom, ih]

theorem ta_ema_length (l : List ℚ) (p : ℕ) : (ta_ema l p).length = l.length := by
  cases l with
  | nil => rfl
  | cons v vs => simp [ta_ema, emaFrom_length]

theorem calculateEMAs_length (l : List LinePoint) :
    (calculateEMAs l).1.length = l.length ∧ (calculateEMAs l).2.length = l.length := by
  constructor <;> simp [calculateEMAs, ta_ema_length]

/-- Each live tick stores in `emaData` the EMA series recomputed over the
*entire* retained mid line (this is literally what the source computes). -/
theorem liveTick_ema_eq_full_recompute (tf : ℤ) (s : ChartState) (q : Quote) :
    (liveTick tf s q).ema9 = (calculateEMAs ((liveTick tf s q).mid)).1 ∧
      (liveTick tf s q).ema20 = (calculateEMAs ((liveTick tf s q).mid)).2 :=
  ⟨rfl, rfl⟩

/-- C3 (code evaluation): after the third live tick the stored EMA series
holds one recomputed point for *every* retained mid bucket (three points),
not only the newest one — the live path reruns `calculateEMAs` over the whole
retained history on every tick. -/
theorem live_ema_recomputes_history :
    ((([⟨0, 1, 1⟩, ⟨1, 2, 2⟩, ⟨2, 3, 3⟩] : List Quote).foldl (liveTick 1)
        ChartState.empty).ema9).length = 3 ∧
      ((([⟨0, 1, 1⟩, ⟨1, 2, 2⟩, ⟨2, 3, 3⟩] : List Quote).foldl (liveTick 1)
        ChartState.empty).mid).length = 3 := by
  have hb0 : bucketOf 1 (0 : ℚ) = 0 := by norm_num [bucketOf]
  have hb1 : bucketOf 1 (1 : ℚ) = 1 := by norm_num [bucketOf]
  have hb2 : bucketOf 1 (2 : ℚ) = 2 := by norm_num [bucketOf]
  constructor <;>
    simp [liveTick, updateLineSeries, updateCandles, ChartState.empty, hb0, hb1, hb2,
      calculateEMAs, ta_ema, emaFrom]

theorem emaFrom_getD (a : ℚ) :
    ∀ (l : List ℚ) (prev : ℚ) (k : ℕ), k < l.length →
      (emaFrom a prev l).getD k 0 =
        l.getD k 0 * a + ((prev :: emaFrom a prev l).getD k 0) * (1 - a) := by
  intro l
  induction l with
  | nil => intro prev k h; simp at h
  | cons v vs ih =>
    intro prev k h
    cases k with
    | zero => simp [emaFrom]
    | succ k =>
      have h' : k < vs.length := by simpa using h
      simpa [emaFrom] using ih (v * a + prev * (1 - a)) k h'

theorem ta_ema_recurrence (v : ℚ) (vs : List ℚ) (p k : ℕ)
    (hk : k + 1 < (v :: vs).length) :
    (ta_ema (v :: vs) p).getD (k + 1) 0 =
      (v :: vs).getD (k + 1) 0 * (2 / ((p : ℚ) + 1)) +
        (ta_ema (v :: vs) p).getD k 0 * (1 - 2 / ((p : ℚ) + 1)) := by
  have h' : k < vs.length := by simpa using hk
  simpa [ta_ema] using emaFrom_getD (2 / ((p : ℚ) + 1)) vs v k h'

/-- C8: the EMA is seeded with the series' first value (no warm-up skip), the
following points obey `ema[t] = value[t]·α + ema[t-1]·(1-α)` with
`α = 2/(p+1)`, and `calculateEMAs` accordingly emits the first mid value as
the first point of both EMA series. -/
theorem ema_seed_and_recurrence (v : ℚ) (vs : List ℚ) (p k : ℕ) (d : LinePoint)
    (ds : List LinePoint) (hk : k + 1 < (v :: vs).length) :
    (ta_ema (v :: vs) p).head? = some v ∧
      (ta_ema (v :: vs) p).getD (k + 1) 0 =
        (v :: vs).getD (k + 1) 0 * (2 / ((p : ℚ) + 1)) +
          (ta_ema (v :: vs) p).getD k 0 * (1 - 2 / ((p : ℚ) + 1)) ∧
      (calculateEMAs (d :: ds)).1.head? = some ⟨d.time, d.value⟩ ∧
      (calculateEMAs (d :: ds)).2.head? = some ⟨d.time, d.value⟩ :=
  ⟨rfl, ta_ema_recurrence v vs p k hk,
    by simp [calculateEMAs, ta_ema], by simp [calculateEMAs, ta_ema]⟩

/-- Witness: `ema_seed_and_recurrence` at `values = [1, 2]`, period 9,
`k = 0`, first mid point `(0, 5)`. -/
theorem ema_seed_and_recurrence_witness :
    0 + 1 < ([1, 2] : List ℚ).length ∧
      ((ta_ema [1, 2] 9).head? = some 1 ∧
        (ta_ema [1, 2] 9).getD (0 + 1) 0 =
          ([1, 2] : List ℚ).getD (0 + 1) 0 * (2 / ((9 : ℚ) + 1)) +
            (ta_ema [1, 2] 9).getD 0 0 * (1 - 2 / ((9 : ℚ) + 1)) ∧
        (calculateEMAs (⟨0, 5⟩ :: [])).1.head? = some ⟨(0 : ℤ), (5 : ℚ)⟩ ∧
        (calculateEMAs (⟨0, 5⟩ :: [])).2.head? = some ⟨(0 : ℤ), (5 : ℚ)⟩) :=
  ⟨by norm_num, ema_seed_and_recurrence 1 [2] 9 0 ⟨0, 5⟩ [] (by norm_num)⟩

/-! ## Properties of the binary64 rounding model -/

theorem rne_cases (y : ℚ) : rne y = ⌊y⌋ ∨ rne y = ⌊y⌋ + 1 := by
  unfold rne
  split_ifs <;> simp

theorem rne_abs_le (y : ℚ) : |(rne y : ℚ) - y| ≤ 1 / 2 := by
  have hfl : (⌊y⌋ : ℚ) ≤ y := Int.floor_le y
  have hfu : y < ⌊y⌋ + 1 := Int.lt_floor_add_one y
  unfold rne
  split_ifs with h1 h2 h3 <;> rw [abs_le] <;> constructor <;> push_cast <;> linarith

theorem rne_nonneg (y : ℚ) (hy : 0 ≤ y) : 0 ≤ rne y := by
  have h0 : 0 ≤ ⌊y⌋ := Int.floor_nonneg.mpr hy
  rcases rne_cases y with h | h <;> omega

theorem floorLog2_spec (q : ℚ) (hq : 0 < q) :
    (2 : ℚ) ^ floorLog2 q ≤ q ∧ q < (2 : ℚ) ^ (floorLog2 q + 1) := by
  have hnum : 0 < q.num := Rat.num_pos.mpr hq
  have ha0 : q.num.natAbs ≠ 0 := by omega
  have hden0 : q.den ≠ 0 := q.den_nz
  have hden : (0 : ℚ) < (q.den : ℚ) := by exact_mod_cast q.den_pos
  have hA1n : 2 ^ Nat.log 2 q.num.natAbs ≤ q.num.natAbs := Nat.pow_log_le_self 2 ha0
  have hA2n : q.num.natAbs < 2 ^ (Nat.log 2 q.num.natAbs + 1) :=
    Nat.lt_pow_succ_log_self (by norm_num) _
  have hB1n : 2 ^ Nat.log 2 q.den ≤ q.den := Nat.pow_log_le_self 2 hden0
  have hB2n : q.den < 2 ^ (Nat.log 2 q.den + 1) := Nat.lt_pow_succ_log_self (by norm_num) _
  have hcast : (q.num.natAbs : ℚ) = (q.num : ℚ) := by
    rw [Int.cast_natAbs, abs_of_pos hnum]
  have hQA1 : (2 : ℚ) ^ ((Nat.log 2 q.num.natAbs : ℤ)) ≤ (q.num : ℚ) := by
    rw [zpow_natCast, ← hcast]
    exact_mod_cast hA1n
  have hQA2 : (q.num : ℚ) < (2 : ℚ) ^ ((Nat.log 2 q.num.natAbs : ℤ) + 1) := by
    rw [show (Nat.log 2 q.num.natAbs : ℤ) + 1 = ((Nat.log 2 q.num.natAbs + 1 : ℕ) : ℤ) by
      push_cast; ring]
    rw [zpow_natCast, ← hcast]
    exact_mod_cast hA2n
  have hQB1 : (2 : ℚ) ^ ((Nat.log 2 q.den : ℤ)) ≤ (q.den : ℚ) := by
    rw [zpow_natCast]
    exact_mod_cast hB1n
  have hQB2 : (q.den : ℚ) < (2 : ℚ) ^ ((Nat.log 2 q.den : ℤ) + 1) := by
    rw [show (Nat.log 2 q.den : ℤ) + 1 = ((Nat.log 2 q.den + 1 : ℕ) : ℤ) by push_cast; ring]
    rw [zpow_natCast]
    exact_mod_cast hB2n
  have hqeq : q = (q.num : ℚ) / (q.den : ℚ) := (Rat.num_div_den q).symm
  have hlow : (2 : ℚ) ^ ((Nat.log 2 q.num.natAbs : ℤ) - (Nat.log 2 q.den : ℤ) - 1) < q := by
    conv_rhs => rw [hqeq]
    rw [lt_div_iff₀ hden]
    calc (2 : ℚ) ^ ((Nat.log 2 q.num.natAbs : ℤ) - (Nat.log 2 q.den : ℤ) - 1) * (q.den : ℚ)
        < (2 : ℚ) ^ ((Nat.log 2 q.num.natAbs : ℤ) - (Nat.log 2 q.den : ℤ) - 1) *
            (2 : ℚ) ^ ((Nat.log 2 q.den : ℤ) + 1) :=
          mul_lt_mul_of_pos_left hQB2 (by positivity)
      _ = (2 : ℚ) ^ ((Nat.log 2 q.num.natAbs : ℤ)) := by
          rw [← zpow_add₀ (two_ne_zero : (2 : ℚ) ≠ 0)]
          congr 1
          ring
      _ ≤ (q.num : ℚ) := hQA1
  have hupp : q < (2 : ℚ) ^ ((Nat.log 2 q.num.natAbs : ℤ) - (Nat.log 2 q.den : ℤ) + 1) := by
    conv_lhs => rw [hqeq]
    rw [div_lt_iff₀ hden]
    calc (q.num : ℚ) < (2 : ℚ) ^ ((Nat.log 2 q.num.natAbs : ℤ) + 1) := hQA2
      _ = (2 : ℚ) ^ ((Nat.log 2 q.num.natAbs : ℤ) - (Nat.log 2 q.den : ℤ) + 1) *
            (2 : ℚ) ^ ((Nat.log 2 q.den : ℤ)) := by
          rw [← zpow_add₀ (two_ne_zero : (2 : ℚ) ≠ 0)]
          congr 1
          ring
      _ ≤ (2 : ℚ) ^ ((Nat.log 2 q.num.natAbs : ℤ) - (Nat.log 2 q.den : ℤ) + 1) * (q.den : ℚ) :=
          mul_le_mul_of_nonneg_left hQB1 (by positivity)
  unfold floorLog2
  rw [if_neg (not_le.mpr hq)]
  dsimp only
  split_ifs with h
  · exact ⟨h, hupp⟩
  · refine ⟨le_of_lt hlow, ?_⟩
    have h2 : q < (2 : ℚ) ^ ((Nat.log 2 q.num.natAbs : ℤ) - (Nat.log 2 q.den : ℤ)) := not_le.mp h
    calc q < (2 : ℚ) ^ ((Nat.log 2 q.num.natAbs : ℤ) - (Nat.log 2 q.den : ℤ)) := h2
      _ = (2 : ℚ) ^ ((Nat.log 2 q.num.natAbs : ℤ) - (Nat.log 2 q.den : ℤ) - 1 + 1) := by
          congr 1
          ring

theorem floorLog2_unique (q : ℚ) (hq : 0 < q) (e : ℤ)
    (h1 : (2 : ℚ) ^ e ≤ q) (h2 : q < (2 : ℚ) ^ (e + 1)) : floorLog2 q = e := by
  obtain ⟨hs1, hs2⟩ := floorLog2_spec q hq
  by_contra hne
  rcases lt_or_gt_of_ne hne with hlt | hgt
  · have hle : floorLog2 q + 1 ≤ e := by omega
    have : (2 : ℚ) ^ (floorLog2 q + 1) ≤ (2 : ℚ) ^ e :=
      zpow_le_zpow_right₀ (by norm_num) hle
    linarith
  · have hle : e + 1 ≤ floorLog2 q := by omega
    have : (2 : ℚ) ^ (e + 1) ≤ (2 : ℚ) ^ floorLog2 q :=
      zpow_le_zpow_right₀ (by norm_num) hle
    linarith

theorem fl_of_pos (q : ℚ) (hq : 0 < q) : fl q = flPos q := by
  unfold fl
  rw [if_neg (by linarith), if_neg (by linarith)]

theorem fl_abs_err (q : ℚ) (hq : 0 < q) : |fl q - q| ≤ q / 2 ^ 53 := by
  rw [fl_of_pos q hq]
  unfold flPos
  have h2e : (0 : ℚ) < (2 : ℚ) ^ (floorLog2 q - 52) := by positivity
  have hcancel : q / (2 : ℚ) ^ (floorLog2 q - 52) * (2 : ℚ) ^ (floorLog2 q - 52) = q :=
    div_mul_cancel₀ q (ne_of_gt h2e)
  have key : (rne (q / (2 : ℚ) ^ (floorLog2 q - 52)) : ℚ) * (2 : ℚ) ^ (floorLog2 q - 52) - q =
      ((rne (q / (2 : ℚ) ^ (floorLog2 q - 52)) : ℚ) - q / (2 : ℚ) ^ (floorLog2 q - 52)) *
        (2 : ℚ) ^ (floorLog2 q - 52) := by
    rw [sub_mul, hcancel]
  rw [key, abs_mul, abs_of_pos h2e]
  have h1 := rne_abs_le (q / (2 : ℚ) ^ (floorLog2 q - 52))
  have h2 : (2 : ℚ) ^ (floorLog2 q - 52) ≤ q / 2 ^ 52 := by
    have hlow := (floorLog2_spec q hq).1
    rw [div_eq_mul_inv, ← zpow_natCast (2 : ℚ) 52, ← zpow_neg, zpow_sub₀
      (two_ne_zero : (2 : ℚ) ≠ 0)]
    rw [div_eq_mul_inv, ← zpow_neg]
    exact mul_le_mul_of_nonneg_right hlow (by positivity)
  calc |(rne (q / (2 : ℚ) ^ (floorLog2 q - 52)) : ℚ) - q / (2 : ℚ) ^ (floorLog2 q - 52)| *
        (2 : ℚ) ^ (floorLog2 q - 52)
      ≤ (1 / 2) * (q / 2 ^ 52) := by
        apply mul_le_mul h1 h2 (le_of_lt h2e) (by norm_num)
    _ = q / 2 ^ 53 := by ring

theorem fl_nonneg (q : ℚ) (hq : 0 ≤ q) : 0 ≤ fl q := by
  rcases eq_or_lt_of_le hq with h | h
  · rw [← h]
    simp [fl]
  · rw [fl_of_pos q h]
    unfold flPos
    have hy : (0 : ℚ) ≤ q / (2 : ℚ) ^ (floorLog2 q - 52) := by positivity
    have := rne_nonneg _ hy
    have h2e : (0 : ℚ) ≤ (2 : ℚ) ^ (floorLog2 q - 52) := by positivity
    exact mul_nonneg (by exact_mod_cast this) h2e

theorem fl_le_mul (q : ℚ) (hq : 0 < q) : fl q ≤ q * (1 + 1 / 2 ^ 53) := by
  have h := abs_le.mp (fl_abs_err q hq)
  have := h.2
  nlinarith [hq]

theorem fl_ge_mul (q : ℚ) (hq : 0 < q) : q * (1 - 1 / 2 ^ 53) ≤ fl q := by
  have h := abs_le.mp (fl_abs_err q hq)
  have := h.1
  nlinarith [hq]

theorem fl_zero : fl 0 = 0 := by simp [fl]

/-- Evaluation rule for `fl` at a positive rational with known exponent
bracket and known rounding. -/
theorem flPos_eval (q : ℚ) (E m : ℤ) (hq : 0 < q)
    (hb1 : (2 : ℚ) ^ (E + 52) ≤ q) (hb2 : q < (2 : ℚ) ^ (E + 52 + 1))
    (hm : rne (q / (2 : ℚ) ^ E) = m) : fl q = (m : ℚ) * (2 : ℚ) ^ E := by
  have hlog : floorLog2 q = E + 52 := floorLog2_unique q hq (E + 52) hb1 hb2
  rw [fl_of_pos q hq]
  unfold flPos
  rw [hlog, show E + 52 - 52 = E by ring, hm]

theorem jsSpreadOffset_nonneg (i k : ℕ) : 0 ≤ jsSpreadOffset i k := by
  unfold jsSpreadOffset
  apply Int.floor_nonneg.mpr
  apply fl_nonneg
  exact mul_nonneg (by positivity) (fl_nonneg _ (by positivity))

theorem jsSpreadOffset_le (i k : ℕ) (h2 : 2 ≤ k) (hk : k ≤ 2 ^ 32) (hi : i < k) :
    jsSpreadOffset i k ≤ 999 := by
  have hkq : (2 : ℚ) ≤ (k : ℚ) := by exact_mod_cast h2
  have hkq2 : (k : ℚ) ≤ 2 ^ 32 := by exact_mod_cast hk
  have hkpos : (0 : ℚ) < (k : ℚ) := by linarith
  have hqpos : (0 : ℚ) < 1000 / (k : ℚ) := by positivity
  have hc_le : fl (1000 / (k : ℚ)) ≤ 1000 / (k : ℚ) * (1 + 1 / 2 ^ 53) := fl_le_mul _ hqpos
  have hc_nonneg : 0 ≤ fl (1000 / (k : ℚ)) := fl_nonneg _ (le_of_lt hqpos)
  have hiq : (i : ℚ) ≤ (k : ℚ) - 1 := by
    have h : (i : ℚ) + 1 ≤ (k : ℚ) := by exact_mod_cast hi
    linarith
  have hx_le : (i : ℚ) * fl (1000 / (k : ℚ)) ≤
      ((k : ℚ) - 1) * (1000 / (k : ℚ) * (1 + 1 / 2 ^ 53)) :=
    mul_le_mul hiq hc_le hc_nonneg (by linarith)
  have hx_nonneg : (0 : ℚ) ≤ (i : ℚ) * fl (1000 / (k : ℚ)) :=
    mul_nonneg (by positivity) hc_nonneg
  rcases eq_or_lt_of_le hx_nonneg with hx0 | hxpos
  · unfold jsSpreadOffset
    rw [← hx0, fl_zero]
    norm_num
  · have hflx : fl ((i : ℚ) * fl (1000 / (k : ℚ))) ≤
        (i : ℚ) * fl (1000 / (k : ℚ)) * (1 + 1 / 2 ^ 53) := fl_le_mul _ hxpos
    have hkey : ((k : ℚ) - 1) * (1000 / (k : ℚ) * (1 + 1 / 2 ^ 53)) * (1 + 1 / 2 ^ 53) <
        1000 := by
      have expand : ((k : ℚ) - 1) * (1000 / (k : ℚ) * (1 + 1 / 2 ^ 53)) * (1 + 1 / 2 ^ 53) =
          1000 * ((k : ℚ) - 1) * (1 + 1 / 2 ^ 53) ^ 2 / (k : ℚ) := by
        field_simp
        ring
      rw [expand, div_lt_iff₀ hkpos]
      nlinarith [hkq, hkq2]
    have hlt : fl ((i : ℚ) * fl (1000 / (k : ℚ))) < 1000 := by
      calc fl ((i : ℚ) * fl (1000 / (k : ℚ)))
          ≤ (i : ℚ) * fl (1000 / (k : ℚ)) * (1 + 1 / 2 ^ 53) := hflx
        _ ≤ ((k : ℚ) - 1) * (1000 / (k : ℚ) * (1 + 1 / 2 ^ 53)) * (1 + 1 / 2 ^ 53) :=
            mul_le_mul_of_nonneg_right hx_le (by norm_num)
        _ < 1000 := hkey
    unfold jsSpreadOffset
    have hfloor : ⌊fl ((i : ℚ) * fl (1000 / (k : ℚ)))⌋ < 1000 :=
      Int.floor_lt.mpr (by exact_mod_cast hlt)
    omega

theorem jsSpreadOffset_zero_idx (k : ℕ) : jsSpreadOffset 0 k = 0 := by
  unfold jsSpreadOffset
  rw [Nat.cast_zero, zero_mul, fl_zero]
  norm_num

/-- The binary64 value of `1000 / 38`. -/
theorem fl_thousand_div_38 :
    fl ((1000 : ℚ) / 38) = (7407236229227789 : ℚ) * (2 : ℚ) ^ (-48 : ℤ) := by
  apply flPos_eval _ (-48) 7407236229227789 (by norm_num)
  · show (2 : ℚ) ^ (-48 + 52 : ℤ) ≤ 1000 / 38
    norm_num
  · show (1000 : ℚ) / 38 < (2 : ℚ) ^ (-48 + 52 + 1 : ℤ)
    norm_num
  · have hy : (1000 : ℚ) / 38 / (2 : ℚ) ^ (-48 : ℤ) = 140737488355328000 / 19 := by
      rw [zpow_neg]
      norm_num
    rw [hy]
    unfold rne
    have hf : ⌊(140737488355328000 : ℚ) / 19⌋ = 7407236229227789 := by norm_num
    rw [hf]
    norm_num

/-- The binary64 value of `19 * fl(1000 / 38)`. -/
theorem fl_nineteen_prod :
    fl ((19 : ℚ) * ((7407236229227789 : ℚ) * (2 : ℚ) ^ (-48 : ℤ))) =
      (8796093022207999 : ℚ) * (2 : ℚ) ^ (-44 : ℤ) := by
  have hq : (19 : ℚ) * ((7407236229227789 : ℚ) * (2 : ℚ) ^ (-48 : ℤ)) =
      140737488355327991 / 281474976710656 := by
    rw [show ((2 : ℚ) ^ (-48 : ℤ)) = 1 / 281474976710656 by norm_num]
    norm_num
  rw [hq]
  apply flPos_eval _ (-44) 8796093022207999 (by norm_num)
  · show (2 : ℚ) ^ (-44 + 52 : ℤ) ≤ 140737488355327991 / 281474976710656
    norm_num
  · show (140737488355327991 : ℚ) / 281474976710656 < (2 : ℚ) ^ (-44 + 52 + 1 : ℤ)
    norm_num
  · have hy : (140737488355327991 : ℚ) / 281474976710656 / (2 : ℚ) ^ (-44 : ℤ) =
        140737488355327991 / 16 := by
      rw [zpow_neg]
      norm_num
    rw [hy]
    unfold rne
    have hf : ⌊(140737488355327991 : ℚ) / 16⌋ = 8796093022207999 := by norm_num
    rw [hf]
    norm_num

/-- The divergent offset: binary64 gives 499 where exact arithmetic gives
`⌊19·1000/38⌋ = 500`. -/
theorem jsSpreadOffset_19_38 : jsSpreadOffset 19 38 = 499 := by
  unfold jsSpreadOffset
  rw [show ((19 : ℕ) : ℚ) = 19 by norm_num, show ((38 : ℕ) : ℚ) = 38 by norm_num]
  rw [fl_thousand_div_38, fl_nineteen_prod]
  rw [show (8796093022207999 : ℚ) * (2 : ℚ) ^ (-44 : ℤ) =
    8796093022207999 / 17592186044416 by
      rw [show ((2 : ℚ) ^ (-44 : ℤ)) = 1 / 17592186044416 by norm_num]
      norm_num]
  norm_num

/-! ## TimestampSynthesizer lemmas -/

theorem assignSpread_length (s : ℤ) (k : ℕ) :
    ∀ (g : List PTick) (i0 : ℕ), (assignSpread s k i0 g).length = g.length := by
  intro g
  induction g with
  | nil => intro i0; rfl
  | cons t ts ih => intro i0; simp [assignSpread, ih]

theorem mem_assignSpread_intro (s : ℤ) (k : ℕ) :
    ∀ (g : List PTick) (i0 j : ℕ) (hj : j < g.length),
      (g.get ⟨j, hj⟩, (s : ℚ) + ((jsSpreadOffset (i0 + j) k : ℤ) : ℚ) / 1000) ∈
        assignSpread s k i0 g := by
  intro g
  induction g with
  | nil => intro i0 j hj; simp at hj
  | cons t ts ih =>
    intro i0 j hj
    cases j with
    | zero => simp [assignSpread]
    | succ j =>
      have h' : j < ts.length := by simpa using hj
      simp only [assignSpread, List.mem_cons, List.get_cons_succ]
      right
      rw [show i0 + (j + 1) = i0 + 1 + j by omega]
      exact ih (i0 + 1) j h'

theorem mem_assignSpread_elim (s : ℤ) (k : ℕ) :
    ∀ (g : List PTick) (i0 : ℕ) (x : PTick × ℚ), x ∈ assignSpread s k i0 g →
      ∃ (j : ℕ) (hj : j < g.length),
        x = (g.get ⟨j, hj⟩, (s : ℚ) + ((jsSpreadOffset (i0 + j) k : ℤ) : ℚ) / 1000) := by
  intro g
  induction g with
  | nil => intro i0 x hx; simp [assignSpread] at hx
  | cons t ts ih =>
    intro i0 x hx
    rcases List.mem_cons.mp (by simpa [assignSpread] using hx) with h | h
    · refine ⟨0, by simp, ?_⟩
      simpa using h
    · obtain ⟨j, hj, hx'⟩ := ih (i0 + 1) x h
      refine ⟨j + 1, by simp [hj], ?_⟩
      rw [hx', show i0 + (j + 1) = i0 + 1 + j by omega]
      simp

theorem assignGroup_eq_spread (s : ℤ) (g : List PTick) (h : g.length ≠ 1) :
    assignGroup s g = assignSpread s g.length 0 g := by
  cases g with
  | nil => rfl
  | cons a g' =>
    cases g' with
    | nil => exact absurd rfl h
    | cons b g'' => rfl

theorem mem_assignGroup_elim (s : ℤ) (g : List PTick) (x : PTick × ℚ)
    (hx : x ∈ assignGroup s g) :
    (g = [x.1] ∧ x.2 = (s : ℚ)) ∨
      (2 ≤ g.length ∧ ∃ (j : ℕ) (hj : j < g.length),
        x = (g.get ⟨j, hj⟩, (s : ℚ) + ((jsSpreadOffset j g.length : ℤ) : ℚ) / 1000)) := by
  cases g with
  | nil => simp [assignGroup, assignSpread] at hx
  | cons a g' =>
    cases g' with
    | nil =>
      left
      simp only [assignGroup, List.mem_singleton] at hx
      rw [hx]
      exact ⟨rfl, rfl⟩
    | cons b g'' =>
      right
      refine ⟨by simp, ?_⟩
      have helim := mem_assignSpread_elim s (a :: b :: g'').length (a :: b :: g'') 0 x
        (by simpa [assignGroup] using hx)
      obtain ⟨j, hj, hxe⟩ := helim
      exact ⟨j, hj, by simpa using hxe⟩

theorem mem_assignGroup_fst (s : ℤ) (g : List PTick) (x : PTick × ℚ)
    (hx : x ∈ assignGroup s g) : x.1 ∈ g := by
  rcases mem_assignGroup_elim s g x hx with ⟨hg, _⟩ | ⟨_, j, hj, hxe⟩
  · rw [hg]
    simp
  · have hfst := congrArg Prod.fst hxe
    simp only at hfst
    rw [hfst]
    exact List.get_mem _ _ _

theorem mem_foldl_keys_mono : ∀ (data : List PTick) (ks : List ℤ) (x : ℤ), x ∈ ks →
    x ∈ data.foldl (fun ks t => if secOf t ∈ ks then ks else ks ++ [secOf t]) ks := by
  intro data
  induction data with
  | nil => intro ks x hx; exact hx
  | cons t ts ih =>
    intro ks x hx
    simp only [List.foldl_cons]
    apply ih
    by_cases h : secOf t ∈ ks <;> simp [h, hx]

theorem mem_foldl_keys : ∀ (data : List PTick) (ks : List ℤ) (t : PTick), t ∈ data →
    secOf t ∈ data.foldl (fun ks t => if secOf t ∈ ks then ks else ks ++ [secOf t]) ks := by
  intro data
  induction data with
  | nil => intro ks t ht; simp at ht
  | cons u us ih =>
    intro ks t ht
    simp only [List.foldl_cons]
    rcases List.mem_cons.mp ht with h | h
    · subst h
      apply mem_foldl_keys_mono
      by_cases hmem : secOf t ∈ ks <;> simp [hmem]
    · exact ih _ t h

theorem mem_firstOccKeys (data : List PTick) (t : PTick) (ht : t ∈ data) :
    secOf t ∈ firstOccKeys data :=
  mem_foldl_keys data [] t ht

theorem mem_preprocess_intro (data : List PTick) (s : ℤ) (x : PTick × ℚ)
    (hs : s ∈ firstOccKeys data) (hd : data ≠ [])
    (hx : x ∈ assignGroup s (data.filter (fun t => secOf t = s))) :
    x ∈ preprocessTimestamps data := by
  unfold preprocessTimestamps
  rw [if_neg (by simpa [List.isEmpty_iff] using hd)]
  rw [List.Perm.mem_iff (List.mergeSort_perm _ _)]
  rw [List.mem_flatten]
  exact ⟨_, List.mem_map_of_mem _ hs, hx⟩

theorem mem_preprocess_elim (data : List PTick) (x : PTick × ℚ)
    (hx : x ∈ preprocessTimestamps data) :
    ∃ s ∈ firstOccKeys data, x ∈ assignGroup s (data.filter (fun t => secOf t = s)) := by
  unfold preprocessTimestamps at hx
  by_cases hd : data.isEmpty
  · rw [if_pos hd] at hx
    simp at hx
  · rw [if_neg hd] at hx
    rw [List.Perm.mem_iff (List.mergeSort_perm _ _)] at hx
    rw [List.mem_flatten] at hx
    obtain ⟨l, hl, hxl⟩ := hx
    obtain ⟨s, hs, rfl⟩ := List.mem_map.mp hl
    exact ⟨s, hs, hxl⟩

theorem preprocess_spread_assignment_aux (data : List PTick) (s : ℤ) (i : ℕ)
    (hk : 1 < (data.filter (fun t => secOf t = s)).length)
    (hi : i < (data.filter (fun t => secOf t = s)).length) :
    ((data.filter (fun t => secOf t = s)).get ⟨i, hi⟩,
      (s : ℚ) +
        ((jsSpreadOffset i (data.filter (fun t => secOf t = s)).length : ℤ) : ℚ) / 1000) ∈
      preprocessTimestamps data := by
  have hhead : (data.filter (fun t => secOf t = s)).get ⟨0, by omega⟩ ∈
      data.filter (fun t => secOf t = s) := List.get_mem _ _ _
  obtain ⟨hmem, hsec⟩ := List.mem_filter.mp hhead
  have hs : s ∈ firstOccKeys data := by
    have h := mem_firstOccKeys data _ hmem
    rwa [of_decide_eq_true hsec] at h
  have hd : data ≠ [] := by
    intro h
    subst h
    simp at hk
  apply mem_preprocess_intro data s _ hs hd
  rw [assignGroup_eq_spread s _ (by omega)]
  have h := mem_assignSpread_intro s (data.filter (fun t => secOf t = s)).length
    (data.filter (fun t => secOf t = s)) 0 i hi
  simpa using h

/-- C4 (amended): for every tick sequence and every second `s` whose group
holds `k > 1` ticks, the `i`-th tick of the group (0-indexed, arrival order)
is assigned `adjustedTime = s + m/1000` with
`m = Math.floor(i * (1000 / k))` evaluated in binary64 (`jsSpreadOffset`);
this equals `⌊i·1000/k⌋` except where binary64 rounding lowers the floor by
one millisecond (first at `k = 38`, `i = 19`). -/
theorem preprocess_spread_assignment (data : List PTick) (s : ℤ) (i : ℕ)
    (hk : 1 < (data.filter (fun t => secOf t = s)).length)
    (hi : i < (data.filter (fun t => secOf t = s)).length) :
    ((data.filter (fun t => secOf t = s)).get ⟨i, hi⟩,
      (s : ℚ) +
        ((jsSpreadOffset i (data.filter (fun t => secOf t = s)).length : ℤ) : ℚ) / 1000) ∈
      preprocessTimestamps data :=
  preprocess_spread_assignment_aux data s i hk hi

/-- Two ticks in the same second, for the C4 witness. -/
def c4wdata : List PTick := [⟨0, 0⟩, ⟨1, 1⟩]

/-- Witness: `preprocess_spread_assignment` applied to a 2-tick group at
index 0 (offset `Math.floor(0 * (1000/2)) = 0`). -/
theorem preprocess_spread_assignment_witness :
    1 < (c4wdata.filter (fun t => secOf t = 0)).length ∧
      ((c4wdata.filter (fun t => secOf t = 0)).get ⟨0, by decide⟩,
        ((0 : ℤ) : ℚ) +
          ((jsSpreadOffset 0 (c4wdata.filter (fun t => secOf t = 0)).length : ℤ) : ℚ) / 1000) ∈
        preprocessTimestamps c4wdata :=
  ⟨by decide, preprocess_spread_assignment c4wdata 0 0 (by decide) (by decide)⟩

/-- 38 distinct ticks sharing the integer second 0. -/
def c4data : List PTick :=
  (List.range 38).map (fun (j : ℕ) => { timeMs := (j : ℤ), id := j })

theorem c4data_filter : c4data.filter (fun t => secOf t = 0) = c4data := by decide

theorem c4data_length : c4data.length = 38 := by
  simp [c4data]

theorem c4data_get (j : ℕ) (hj : j < c4data.length) :
    c4data.get ⟨j, hj⟩ = { timeMs := (j : ℤ), id := j } := by
  simp only [c4data, List.get_eq_getElem, List.getElem_map, List.getElem_range]

/-- C4 (counterexample): with 38 ticks in one second the claim's exact
formula gives the 19-th tick (0-indexed) the offset `⌊19·1000/38⌋ = 500` ms,
i.e. `adjustedTime = 0.5`; the code's binary64 evaluation assigns it
`499/1000`, and no pair `(tick 19, 0.5)` occurs in the output. -/
theorem preprocess_exact_formula_counterexample :
    ((⟨19, 19⟩ : PTick), (0 : ℚ) + ((⌊(19 * 1000 : ℚ) / 38⌋ : ℤ) : ℚ) / 1000) ∉
        preprocessTimestamps c4data ∧
      (0 : ℚ) + ((⌊(19 * 1000 : ℚ) / 38⌋ : ℤ) : ℚ) / 1000 = 1 / 2 ∧
      ((⟨19, 19⟩ : PTick), (0 : ℚ) + ((jsSpreadOffset 19 38 : ℤ) : ℚ) / 1000) ∈
        preprocessTimestamps c4data ∧
      (0 : ℚ) + ((jsSpreadOffset 19 38 : ℤ) : ℚ) / 1000 = 499 / 1000 := by
  have h500 : ⌊(19 * 1000 : ℚ) / 38⌋ = (500 : ℤ) := by norm_num
  have hlen : (c4data.filter (fun t => secOf t = 0)).length = 38 := by
    rw [c4data_filter, c4data_length]
  refine ⟨?_, by rw [h500]; norm_num, ?_, by rw [jsSpreadOffset_19_38]; norm_num⟩
  · intro hmem
    obtain ⟨s, hs, hxg⟩ := mem_preprocess_elim c4data _ hmem
    have hx1mem : (⟨19, 19⟩ : PTick) ∈ c4data.filter (fun t => secOf t = s) :=
      mem_assignGroup_fst s _ _ hxg
    have hsec : secOf (⟨19, 19⟩ : PTick) = s :=
      of_decide_eq_true (List.mem_filter.mp hx1mem).2
    have hs0 : s = 0 := by
      rw [← hsec]
      decide
    subst hs0
    rw [c4data_filter] at hxg
    rcases mem_assignGroup_elim 0 c4data _ hxg with ⟨hg, _⟩ | ⟨h2, j, hj, hxe⟩
    · -- a singleton group of 38 ticks is impossible
      have h1 : c4data.length = 1 := by rw [hg]; rfl
      rw [c4data_length] at h1
      omega
    · -- the spread branch: the tick pins j = 19, whose offset is 499 ≠ 500
      have hfst := congrArg Prod.fst hxe
      have hsnd := congrArg Prod.snd hxe
      simp only at hfst hsnd
      rw [c4data_get j hj] at hfst
      have hj19 : j = 19 := by
        have h := congrArg PTick.id hfst
        simpa using h.symm
      subst hj19
      rw [c4data_length, jsSpreadOffset_19_38, h500] at hsnd
      norm_num at hsnd
  · -- the code's own assignment for the 19-th tick is present in the output
    have hi19 : (19 : ℕ) < (c4data.filter (fun t => secOf t = 0)).length := by
      rw [hlen]
      norm_num
    have h := preprocess_spread_assignment_aux c4data 0 19 (by rw [hlen]; norm_num) hi19
    have key : ∀ (l : List PTick) (hl : l = c4data) (h19 : 19 < l.length),
        l.get ⟨19, h19⟩ = ⟨19, 19⟩ := by
      intro l hl
      subst hl
      intro h19
      rw [c4data_get 19 h19]
      norm_num
    have hget19 := key _ c4data_filter hi19
    rw [hget19, hlen] at h
    simpa using h

/-- C10: every synthesized `adjustedTime` lies in `[s, s+1)` for
`s = ⌊timeMs/1000⌋` of its own tick and is an integer count of milliseconds
past `s`; a singleton group keeps exactly the bare second, discarding any
sub-second part of the original timestamp.  The group-size bound reflects
that a JS array holds fewer than `2^32` elements. -/
theorem preprocess_time_bounds (data : List PTick) (hlen : data.length < 2 ^ 32) :
    (∀ x ∈ preprocessTimestamps data,
        (secOf x.1 : ℚ) ≤ x.2 ∧ x.2 < (secOf x.1 : ℚ) + 1 ∧
          ∃ m : ℤ, 0 ≤ m ∧ m ≤ 999 ∧ x.2 = (secOf x.1 : ℚ) + (m : ℚ) / 1000) ∧
      ∀ t : PTick, preprocessTimestamps [t] = [(t, (secOf t : ℚ))] := by
  constructor
  · intro x hx
    obtain ⟨s, hs, hxg⟩ := mem_preprocess_elim data x hx
    rcases mem_assignGroup_elim s _ _ hxg with ⟨hg, hx2⟩ | ⟨h2, j, hj, hxe⟩
    · have hx1mem : x.1 ∈ data.filter (fun t => secOf t = s) := by
        rw [hg]
        simp
      have hsec : secOf x.1 = s := of_decide_eq_true (List.mem_filter.mp hx1mem).2
      rw [hsec, hx2]
      refine ⟨le_refl _, by linarith, 0, le_refl _, by norm_num, by norm_num⟩
    · have hx1mem : x.1 ∈ data.filter (fun t => secOf t = s) :=
        mem_assignGroup_fst s _ _ hxg
      have hsec : secOf x.1 = s := of_decide_eq_true (List.mem_filter.mp hx1mem).2
      have hkle : (data.filter (fun t => secOf t = s)).length ≤ 2 ^ 32 :=
        le_of_lt (lt_of_le_of_lt (List.length_filter_le _ _) hlen)
      have hmnn := jsSpreadOffset_nonneg j (data.filter (fun t => secOf t = s)).length
      have hmle := jsSpreadOffset_le j (data.filter (fun t => secOf t = s)).length h2 hkle hj
      have hsnd := congrArg Prod.snd hxe
      simp only at hsnd
      rw [hsec]
      refine ⟨?_, ?_, jsSpreadOffset j (data.filter (fun t => secOf t = s)).length,
        hmnn, hmle, hsnd⟩
      · rw [hsnd]
        have : (0 : ℚ) ≤ ((jsSpreadOffset j (data.filter (fun t => secOf t = s)).length : ℤ) : ℚ) := by
          exact_mod_cast hmnn
        linarith
      · rw [hsnd]
        have : ((jsSpreadOffset j (data.filter (fun t => secOf t = s)).length : ℤ) : ℚ) ≤ 999 := by
          exact_mod_cast hmle
        linarith
  · intro t
    unfold preprocessTimestamps
    rw [if_neg (by simp)]
    have hkeys : firstOccKeys [t] = [secOf t] := by simp [firstOccKeys]
    rw [hkeys]
    have hfil : ([t] : List PTick).filter (fun u => secOf u = secOf t) = [t] := by simp
    rw [List.map_cons, List.map_nil, hfil]
    rw [show assignGroup (secOf t) [t] = [(t, (secOf t : ℚ))] from rfl]
    rw [show ([[(t, (secOf t : ℚ))]] : List (List (PTick × ℚ))).flatten =
      [(t, (secOf t : ℚ))] by simp]
    exact List.perm_singleton.mp (List.mergeSort_perm _ _)

/-- Witness: `preprocess_time_bounds` applied to the singleton tick at
1.3 seconds (1300 ms): its adjusted time is exactly second 1. -/
theorem preprocess_time_bounds_witness :
    ([(⟨1300, 0⟩ : PTick)].length < 2 ^ 32) ∧
      preprocessTimestamps [⟨1300, 0⟩] = [(⟨1300, 0⟩, (1 : ℚ))] := by
  refine ⟨by norm_num, ?_⟩
  have h := (preprocess_time_bounds [⟨1300, 0⟩] (by norm_num)).2 ⟨1300, 0⟩
  rw [h, show secOf ⟨1300, 0⟩ = 1 from by decide]
  norm_num

end MomentumReplay
